import Mathlib

/-!
Verification development for the grinder repository miner (src/grinder.py).

The Python source is shallowly embedded as executable Lean definitions:

* the message tagger (`test_regexp` and the four regular expressions) is
  embedded as direct left-to-right scanners over the character list, one per
  pattern, tried in the CPython 2.7 dictionary iteration order of the keys
  of the `regexp` dict;
* the diff line matcher (cost matrix, threshold filter, emission of
  changed/deleted/added edits) is embedded with the assignment solver
  (the external `hungarian` from lapacho) as an explicit function parameter;
* the external `levenshtein_distance(a, b, True)` is modelled from the
  spec's glossary as the normalized Levenshtein distance, with rationals
  standing for the Python floats;
* the persistent store is a record of row lists with monotonically
  assigned integer ids, `build` folds the ingestion over the commit walk,
  and `process` (the origin resolver) is embedded as `bugPatches`.
-/

set_option autoImplicit false

namespace Grinder

/-! ## Message tagger (source lines 42-61) -/

/-- Numeric value of a non-empty decimal digit string, as Python `int(...)`. -/
def digitsToNat (l : List Char) : Nat :=
  l.foldl (fun n c => 10 * n + (c.toNat - '0'.toNat)) 0

/-- If `lit` is a literal prefix of `s`, return the rest of `s`. -/
def dropLiteral : List Char → List Char → Option (List Char)
  | [], s => some s
  | _ :: _, [] => none
  | c :: cs, d :: ds => if c = d then dropLiteral cs ds else none

/-- Match of `bug[# \t]*(\d+)` anchored at the head of the suffix, returning
the captured integer.  The padding class and `\d` are disjoint, so greedy
scanning needs no backtracking. -/
def matchBugAt (s : List Char) : Option Nat :=
  match s with
  | 'b' :: 'u' :: 'g' :: rest =>
    let rest2 := rest.dropWhile (fun c => c == '#' || c == ' ' || c == '\t')
    let ds := rest2.takeWhile Char.isDigit
    if ds.isEmpty then none else some (digitsToNat ds)
  | _ => none

/-- Match of `\[(\d+)\]` anchored at the head of the suffix. -/
def matchBracketAt (s : List Char) : Option Nat :=
  match s with
  | '[' :: rest =>
    let ds := rest.takeWhile Char.isDigit
    if ds.isEmpty then none
    else
      match rest.dropWhile Char.isDigit with
      | ']' :: _ => some (digitsToNat ds)
      | _ => none
  | _ => none

/-- Match of `\#(\d+)` anchored at the head of the suffix. -/
def matchHashAt (s : List Char) : Option Nat :=
  match s with
  | '#' :: rest =>
    let ds := rest.takeWhile Char.isDigit
    if ds.isEmpty then none else some (digitsToNat ds)
  | _ => none

/-- Match of `(?:Fixes|Closes|Resolves) issue \#?(\d+)` anchored at the head
of the suffix (case sensitive, as in the source). -/
def matchSentenceAt (s : List Char) : Option Nat :=
  let afterVerb :=
    match dropLiteral "Fixes".data s with
    | some r => some r
    | none =>
      match dropLiteral "Closes".data s with
      | some r => some r
      | none => dropLiteral "Resolves".data s
  match afterVerb with
  | none => none
  | some r =>
    match dropLiteral " issue ".data r with
    | none => none
    | some r2 =>
      let r3 := match r2 with
        | '#' :: t => t
        | _ => r2
      let ds := r3.takeWhile Char.isDigit
      if ds.isEmpty then none else some (digitsToNat ds)

/-- Python `pattern.search`: try the anchored matcher at every suffix, left
to right, returning the leftmost match. -/
def reSearch (m : List Char → Option Nat) : List Char → Option Nat
  | [] => m []
  | c :: rest =>
    match m (c :: rest) with
    | some n => some n
    | none => reSearch m rest

/-- Embedding of `test_regexp` (source lines 55-61).  The source iterates
`regexp.items()` where `regexp` is a CPython 2.7 dict with the four string
keys bug_number, bracket_number, issue_number, sentence; the 2.7 string
hashes of those keys land in slots 0, 2, 3 and 7 of the size-8 hash table
(on 32-bit and 64-bit builds alike, with no collisions), so the iteration
order coincides with the source order of the literal.  Each pattern has a
single capture group, so a successful pattern yields a one-element list. -/
def test_regexp (s : String) : List Nat :=
  match reSearch matchBugAt s.data with
  | some n => [n]
  | none =>
    match reSearch matchBracketAt s.data with
    | some n => [n]
    | none =>
      match reSearch matchHashAt s.data with
      | some n => [n]
      | none =>
        match reSearch matchSentenceAt s.data with
        | some n => [n]
        | none => []

/-! ## Normalized Levenshtein cost (external `levenshtein_distance`) -/

/-- Modelled from the spec: the classic Levenshtein edit distance between
two character strings (glossary), the core of the external
`jellyfish.levenshtein_distance`.  The first parameter only bounds the
recursion depth: every recursive call shrinks the total length of the two
strings by at least one while spending exactly one unit of fuel, so with
fuel `a.length + b.length` (as `levenshtein` supplies) the zero-fuel arm is
never reached. -/
def levFuel : Nat → List Char → List Char → Nat
  | _, [], ys => ys.length
  | _, x :: xs, [] => (x :: xs).length
  | 0, _, _ => 0
  | fuel + 1, x :: xs, y :: ys =>
    if x = y then levFuel fuel xs ys
    else 1 + min (levFuel fuel xs (y :: ys)) (min (levFuel fuel (x :: xs) ys) (levFuel fuel xs ys))

/-- The Levenshtein edit distance. -/
def levenshtein (a b : List Char) : Nat :=
  levFuel (a.length + b.length) a b

/-- Modelled from the spec: `levenshtein_distance(a, b, True)` is the
normalized Levenshtein distance, edit distance divided by the length of the
longer string (spec glossary and section 4.C step 2); Python floats are
modelled as exact rationals, written through `Rat.divInt` (exact rational
division; see `norm_lev_eq_div`). -/
def norm_lev (a b : String) : ℚ :=
  Rat.divInt (levenshtein a.data b.data) (max a.length b.length)

/-! ## Line matcher (source lines 297-324) -/

/-- Python list slicing loop `[d[x:x+step] for x in xrange(0, len(d), step)]`
used to reshape the flat cost list into the matrix.  The first parameter
only bounds the recursion depth: each round drops `step ≥ 1` elements while
spending one unit of fuel, so with fuel `l.length` (as `chunk` supplies)
the zero-fuel arm is never reached. -/
def chunkFuel {α : Type} : Nat → Nat → List α → List (List α)
  | _, _, [] => []
  | 0, _, _ :: _ => []
  | fuel + 1, step, x :: xs =>
    if step = 0 then []
    else (x :: xs).take step :: chunkFuel fuel step ((x :: xs).drop step)

/-- The reshaping loop itself. -/
def chunk {α : Type} (step : Nat) (l : List α) : List (List α) :=
  chunkFuel l.length step l

/-- The cost matrix of source lines 303-305: map the normalized distance over
`product(deletions, additions)` and reshape with row length `len(additions)`. -/
def costMatrix (deletions additions : List (String × Nat)) : List (List ℚ) :=
  let d := (deletions.product additions).map (fun p => norm_lev p.1.1 p.2.1)
  chunk additions.length d

/-- Matrix indexing `matrix[i][j]` (0 as the out-of-range default). -/
def mget (m : List (List ℚ)) (i j : Nat) : ℚ :=
  (m.getD i []).getD j 0

/-- The changed-lines computation of source lines 301-308: if both vectors
are non-empty, run the assignment solver on the cost matrix, keep the
returned pairs whose cost lies strictly between 0.0 and 0.4, and map them to
the recorded old-side/new-side indices.  The solver (the external
`hungarian`) is an explicit parameter. -/
def changedLines (solver : List (List ℚ) → List (Nat × Nat))
    (deletions additions : List (String × Nat)) : List (Nat × Nat) :=
  if deletions.length ≠ 0 ∧ additions.length ≠ 0 then
    let matrix := costMatrix deletions additions
    ((solver matrix).filter
        (fun p => decide (0 < mget matrix p.1 p.2) &&
          decide (mget matrix p.1 p.2 < Rat.divInt 2 5))).map
      (fun p => ((deletions.getD p.1 ("", 0)).2, (additions.getD p.2 ("", 0)).2))
  else []

/-- The three emission loops of source lines 311-322, as the (old_line,
new_line) pairs of the stored edits, in store order: changed pairs first,
then the deletions whose old-side index is in no changed pair, then the
additions whose new-side index is in no changed pair. -/
def emitBodies (old_start new_start : Nat) (changed : List (Nat × Nat))
    (dels adds : List (String × Nat)) : List (Option Nat × Option Nat) :=
  changed.map (fun q => (some (old_start + q.1), some (new_start + q.2)))
    ++ (dels.filter (fun q => decide (q.2 ∉ changed.map Prod.fst))).map
        (fun q => (some (old_start + q.2), none))
    ++ (adds.filter (fun q => decide (q.2 ∉ changed.map Prod.snd))).map
        (fun q => (none, some (new_start + q.2)))

/-! ## Hunk data (the inbound VCS contract of spec section 6) -/

/-- Classification tag of one line of a hunk's line stream
(pygit2 GIT_DIFF_LINE_CONTEXT / _ADDITION / _DELETION). -/
inductive LineTag : Type
  | context
  | addition
  | deletion
  deriving DecidableEq, Repr

/-- One hunk as the diff library exposes it: old/new paths, old/new start
lines, and the tagged line stream. -/
structure Hunk where
  old_file : String
  new_file : String
  old_start : Nat
  new_start : Nat
  data : List (String × LineTag)
  deriving DecidableEq, Repr

/-- One parent of a commit, together with the hunks of the parent-to-child
tree diff (`none` models `'hunks' not in diff.changes`, source line 280). -/
structure ParentData where
  hex : String
  commit_time : Int
  hunks : Option (List Hunk)
  deriving DecidableEq, Repr

/-- One commit of the chronological (oldest-first) walk. -/
structure CommitData where
  hex : String
  commit_time : Int
  message : String
  parents : List ParentData
  deriving DecidableEq, Repr

/-! ## os.path.splitext and the hunk filter (source line 283) -/

/-- Index of the last occurrence of `c` in `l`, or -1 (Python `rfind`). -/
def rfindChar (c : Char) (l : List Char) : Int :=
  l.enum.foldl (fun acc q => if q.2 = c then (q.1 : Int) else acc) (-1)

/-- The extension component of `os.path.splitext` for posix paths
(genericpath._splitext with sep '/' and extsep '.'): the suffix from the
last dot, provided that dot lies after the last slash and some earlier
character of the basename differs from '.'. -/
def splitextExt (p : String) : String :=
  let cs := p.data
  let sepIndex := rfindChar '/' cs
  let dotIndex := rfindChar '.' cs
  if sepIndex < dotIndex then
    let basename := (cs.drop (sepIndex + 1).toNat).take (dotIndex - sepIndex - 1).toNat
    if basename.any (fun ch => decide (ch ≠ '.')) then String.mk (cs.drop dotIndex.toNat)
    else ""
  else ""

/-- The hunk filter of source line 283:
`splitext(f.old_file)[1] in ['.c', '.h']`.  Only the old path is consulted. -/
def hunkAllowed (h : Hunk) : Bool :=
  splitextExt h.old_file == ".c" || splitextExt h.old_file == ".h"

/-- The hunks the ingestor actually processes (the comprehension filter of
source line 283). -/
def processedHunks (hs : List Hunk) : List Hunk :=
  hs.filter hunkAllowed

/-! ## Hunk decomposition (source lines 292-298) -/

/-- The old-side view of the line stream: every line that is not an
addition (source line 292). -/
def hunkOldData (h : Hunk) : List (String × LineTag) :=
  h.data.filter (fun l => decide (l.2 ≠ LineTag.addition))

/-- The new-side view of the line stream: every line that is not a
deletion (source line 293). -/
def hunkNewData (h : Hunk) : List (String × LineTag) :=
  h.data.filter (fun l => decide (l.2 ≠ LineTag.deletion))

/-- Deletion bodies paired with their index in the old-side view
(source line 297). -/
def hunkDeletions (h : Hunk) : List (String × Nat) :=
  (hunkOldData h).enum.filterMap
    (fun q => if q.2.2 = LineTag.deletion then some (q.2.1, q.1) else none)

/-- Addition bodies paired with their index in the new-side view
(source line 298). -/
def hunkAdditions (h : Hunk) : List (String × Nat) :=
  (hunkNewData h).enum.filterMap
    (fun q => if q.2.2 = LineTag.addition then some (q.2.1, q.1) else none)

/-- The (old_line, new_line) pairs of the edits one processed hunk emits
(source lines 300-322). -/
def hunkEditBodies (solver : List (List ℚ) → List (Nat × Nat)) (h : Hunk) :
    List (Option Nat × Option Nat) :=
  let dels := hunkDeletions h
  let adds := hunkAdditions h
  emitBodies h.old_start h.new_start (changedLines solver dels adds) dels adds

/-! ## The persistent store (source lines 63-247) -/

/-- Row of the files table. -/
structure FileRow where
  id : Nat
  path : String
  deriving DecidableEq, Repr

/-- Row of the commits table. -/
structure CommitRow where
  id : Nat
  hex : String
  date : Int
  deriving DecidableEq, Repr

/-- Row of the edits table. -/
structure EditRow where
  id : Nat
  old_file_id : Option Nat
  new_file_id : Option Nat
  old_line : Option Nat
  new_line : Option Nat
  commit_id : Nat
  deriving DecidableEq, Repr

/-- Row of the bugs table. -/
structure BugRow where
  id : Nat
  bug_no : Nat
  deriving DecidableEq, Repr

/-- The relational store: the six tables of the schema, with the
autoincrement counters of the surrogate ids. -/
structure Store where
  files : List FileRow
  commits : List CommitRow
  commitParents : List (Nat × Nat)
  edits : List EditRow
  bugs : List BugRow
  bugCommits : List (Nat × Nat)
  nextFileId : Nat
  nextCommitId : Nat
  nextEditId : Nat
  nextBugId : Nat
  deriving DecidableEq, Repr

/-- A freshly created store (setup, source lines 181-247). -/
def emptyStore : Store :=
  ⟨[], [], [], [], [], [], 1, 1, 1, 1⟩

/-- The non-id fields of an edit row (the row up to the assigned id). -/
def EditRow.strip (e : EditRow) :
    Option Nat × Option Nat × Option Nat × Option Nat × Nat :=
  (e.old_file_id, e.new_file_id, e.old_line, e.new_line, e.commit_id)

/-- `store.find(Commit, Commit.hex == h).one()`. -/
def Store.findCommit (st : Store) (hex : String) : Option CommitRow :=
  st.commits.find? (fun r => r.hex == hex)

/-- Find-or-add of a commit row by hex (source lines 255-257 and 272-274). -/
def Store.getCommit (st : Store) (hex : String) (date : Int) : CommitRow × Store :=
  match st.findCommit hex with
  | some r => (r, st)
  | none =>
    let r : CommitRow := ⟨st.nextCommitId, hex, date⟩
    (r, { st with commits := st.commits ++ [r], nextCommitId := st.nextCommitId + 1 })

/-- `store.find(File, File.path == p).one()`. -/
def Store.findFile (st : Store) (path : String) : Option FileRow :=
  st.files.find? (fun r => r.path == path)

/-- Find-or-add of a file row by path (source lines 284-289). -/
def Store.getFile (st : Store) (path : String) : FileRow × Store :=
  match st.findFile path with
  | some r => (r, st)
  | none =>
    let r : FileRow := ⟨st.nextFileId, path⟩
    (r, { st with files := st.files ++ [r], nextFileId := st.nextFileId + 1 })

/-- `store.find(Bug, Bug.bug_no == i).one()`. -/
def Store.findBug (st : Store) (no : Nat) : Option BugRow :=
  st.bugs.find? (fun r => r.bug_no == no)

/-- Find-or-add of a bug row by bug number (source lines 262-263). -/
def Store.getBug (st : Store) (no : Nat) : BugRow × Store :=
  match st.findBug no with
  | some r => (r, st)
  | none =>
    let r : BugRow := ⟨st.nextBugId, no⟩
    (r, { st with bugs := st.bugs ++ [r], nextBugId := st.nextBugId + 1 })

/-- Unconditional insertion of an edit row (`store.add(Edit(...))`,
source lines 311-322). -/
def Store.addEdit (st : Store) (oldF newF oldL newL : Option Nat) (cid : Nat) : Store :=
  { st with
    edits := st.edits ++ [⟨st.nextEditId, oldF, newF, oldL, newL, cid⟩],
    nextEditId := st.nextEditId + 1 }

/-- Modelled from the spec: adding a row to a link table through the ORM
(`commit.parents.add(parent)`, `bug.commits.add(commit)`).  The link tables
are keyed by the pair and hold each pair at most once (spec section 3:
CommitParent is "At-most-once per pair"; section 4.D: "upsert the
CommitParent edge"), so the insertion is an upsert. -/
def insertPair (l : List (Nat × Nat)) (p : Nat × Nat) : List (Nat × Nat) :=
  if p ∈ l then l else l ++ [p]

/-! ## Ingestion (`build`, source lines 250-327) -/

/-- One step of the per-hunk insertion loops: insert the edit row of one
emitted body (source lines 311-322). -/
def editStep (oF nF : Option Nat) (cid : Nat) (s : Store)
    (b : Option Nat × Option Nat) : Store :=
  s.addEdit oF nF b.1 b.2 cid

/-- Processing of one allowed hunk (source lines 283-324): find-or-add the
old and new file rows, then insert one edit row per emitted body. -/
def buildHunk (solver : List (List ℚ) → List (Nat × Nat)) (cid : Nat)
    (st : Store) (h : Hunk) : Store :=
  let q1 := st.getFile h.old_file
  let q2 := q1.2.getFile h.new_file
  (hunkEditBodies solver h).foldl (editStep (some q1.1.id) (some q2.1.id) cid) q2.2

/-- Processing of one parent (source lines 271-324): find-or-add the parent
commit, link it, and process the allowed hunks of the diff. -/
def buildParent (solver : List (List ℚ) → List (Nat × Nat)) (cid : Nat)
    (st : Store) (p : ParentData) : Store :=
  let q := st.getCommit p.hex p.commit_time
  let st2 := { q.2 with commitParents := insertPair q.2.commitParents (q.1.id, cid) }
  match p.hunks with
  | none => st2
  | some hs => (processedHunks hs).foldl (buildHunk solver cid) st2

/-- One step of the bug-linking loop of source lines 261-268: find-or-add
the bug row and upsert the bugs_commits link. -/
def bugStep (cid : Nat) (s : Store) (n : Nat) : Store :=
  let qb := s.getBug n
  { qb.2 with bugCommits := insertPair qb.2.bugCommits (qb.1.id, cid) }

/-- Processing of one commit of the walk (source lines 251-327). -/
def buildCommit (solver : List (List ℚ) → List (Nat × Nat))
    (st : Store) (c : CommitData) : Store :=
  let q := st.getCommit c.hex c.commit_time
  let st2 := (test_regexp c.message).foldl (bugStep q.1.id) q.2
  c.parents.foldl (buildParent solver q.1.id) st2

/-- The ingestor (source lines 250-327): fold the per-commit processing
over the chronological walk. -/
def build (solver : List (List ℚ) → List (Nat × Nat))
    (repo : List CommitData) (st : Store) : Store :=
  repo.foldl (buildCommit solver) st

/-! ## Origin resolution (`process`, source lines 329-359) -/

/-- The date options of the resolver (already converted to epoch seconds). -/
structure Options where
  from_date : Option Int
  to_date : Option Int
  deriving DecidableEq, Repr

/-- Options with no date window. -/
def noDates : Options := ⟨none, none⟩

/-- The fix-commit date window of source lines 330-334 (the tautological
`True == True` expression contributes nothing). -/
def inWindow (o : Options) (d : Int) : Bool :=
  (match o.from_date with
   | none => true
   | some f => decide (f ≤ d)) &&
  (match o.to_date with
   | none => true
   | some t => decide (d ≤ t))

/-- The fix commits of a bug: the commits linked through bugs_commits that
pass the date window (`bug.commits.find(And(expressions))`, source line 338). -/
def fixCommits (st : Store) (o : Options) (bug : BugRow) : List CommitRow :=
  st.commits.filter (fun c => decide ((bug.id, c.id) ∈ st.bugCommits) && inWindow o c.date)

/-- `commit.edits`: the edit rows referencing the commit. -/
def commitEdits (st : Store) (c : CommitRow) : List EditRow :=
  st.edits.filter (fun e => e.commit_id == c.id)

/-- The per-edit origin query of source lines 350-354: the commits having
an edit whose new side matches the fix edit's old side, dated strictly
before the fix commit.  Storm compiles an equality against a Python `None`
value to `IS NULL` (and binds any other value as a literal), so both
equalities are equality of optional values. -/
def originCandidates (st : Store) (fixDate : Int) (e : EditRow) : List CommitRow :=
  st.commits.filter (fun c =>
    decide (c.date < fixDate) &&
    st.edits.any (fun e2 =>
      e2.commit_id == c.id && e2.new_file_id == e.old_file_id && e2.new_line == e.old_line))

/-- `result.order_by(Desc(Commit.date)).first()` (source line 355): a
maximum-date element of the query result.  SQLite leaves the order among
date ties unspecified; the embedding fixes the deterministic choice of the
first maximum in row order. -/
def pickLatest : List CommitRow → Option CommitRow
  | [] => none
  | c :: cs =>
    match pickLatest cs with
    | none => some c
    | some b => if c.date < b.date then some b else some c

/-- `patches.add(c)`: set insertion (source line 356). -/
def insertCommitRow (l : List CommitRow) (c : CommitRow) : List CommitRow :=
  if c ∈ l then l else l ++ [c]

/-- One iteration of the per-edit loop of source lines 349-356: run the
origin query, keep its latest commit if any. -/
def patchStep (st : Store) (fixDate : Int) (acc : List CommitRow) (e : EditRow) :
    List CommitRow :=
  match pickLatest (originCandidates st fixDate e) with
  | some c => insertCommitRow acc c
  | none => acc

/-- The patch set `process` accumulates for one bug (source lines 337-356). -/
def bugPatches (st : Store) (o : Options) (bug : BugRow) : List CommitRow :=
  (fixCommits st o bug).foldl (fun acc fix =>
    (commitEdits st fix).foldl (patchStep st fix.date) acc) []

/-- The report of source lines 358-359: one entry per bug whose patch set
is non-empty, carrying the bug number and the patch commit hashes. -/
def processReport (st : Store) (o : Options) : List (Nat × List String) :=
  st.bugs.foldl (fun acc bug =>
    let patches := bugPatches st o bug
    if patches.isEmpty then acc
    else acc ++ [(bug.bug_no, patches.map (fun c => c.hex))]) []

/-! ## Auxiliary predicates and example data used by the theorems -/

/-- The edit well-formedness predicate of spec section 3 invariant 2: one of
deletion shape, addition shape or change shape; the three disjuncts are
pairwise exclusive, and each forbids the doubly-null row. -/
def wellFormedEdit (e : EditRow) : Prop :=
  (e.old_line ≠ none ∧ e.new_line = none) ∨
  (e.old_line = none ∧ e.new_line ≠ none) ∨
  (e.old_line ≠ none ∧ e.new_line ≠ none)

instance (e : EditRow) : Decidable (wellFormedEdit e) := by
  unfold wellFormedEdit; infer_instance

/-- The edit rows inserted by a run of consecutive `store.add(Edit(...))`
calls sharing files and commit, starting from a given autoincrement id. -/
def editRowsFrom (k : Nat) (oF nF : Option Nat) (cid : Nat) :
    List (Option Nat × Option Nat) → List EditRow
  | [] => []
  | b :: bs => ⟨k, oF, nF, b.1, b.2, cid⟩ :: editRowsFrom (k + 1) oF nF cid bs

/-- Store growth: each table of `t` extends the same table of `s` by a
suffix (ingestion only ever appends rows). -/
def tablesLE (s t : Store) : Prop :=
  (∃ u, t.files = s.files ++ u) ∧
  (∃ u, t.commits = s.commits ++ u) ∧
  (∃ u, t.commitParents = s.commitParents ++ u) ∧
  (∃ u, t.bugs = s.bugs ++ u) ∧
  (∃ u, t.bugCommits = s.bugCommits ++ u)

/-- The uniqueness invariants of the store (File.path, Commit.hex and
Bug.bug_no are unique; spec section 3 invariant 1). -/
def wfStore (st : Store) : Prop :=
  (∀ a ∈ st.commits, ∀ b ∈ st.commits, a.hex = b.hex → a = b) ∧
  (∀ a ∈ st.files, ∀ b ∈ st.files, a.path = b.path → a = b) ∧
  (∀ a ∈ st.bugs, ∀ b ∈ st.bugs, a.bug_no = b.bug_no → a = b)

/-- A concrete hunk used by witnesses: one deletion "abc" and one addition
"abd" over a C file (normalized cost 1/3, a changed pair). -/
def hunkEx : Hunk :=
  ⟨"a.c", "a.c", 1, 1, [("abc", LineTag.deletion), ("abd", LineTag.addition)]⟩

/-- A concrete two-commit history used by witnesses: the child commit "c"
mentions bug 7 and its diff against parent "p" consists of `hunkEx`. -/
def repoEx : List CommitData :=
  [⟨"p", 5, "", []⟩, ⟨"c", 10, "bug 7", [⟨"p", 5, some [hunkEx]⟩]⟩]

/-- A one-pair assignment solver used by witnesses. -/
def solverEx : List (List ℚ) → List (Nat × Nat) := fun _ => [(0, 0)]

/-- A concrete store used to exercise the resolver: commit "o" (date 5)
carries a deletion-shaped edit of file 1, the fix commit "f" (date 10) of
bug 7 carries a pure-addition edit (old_line null) of file 1. -/
def storeEx : Store :=
  ⟨[⟨1, "a.c"⟩],
   [⟨1, "o", 5⟩, ⟨2, "f", 10⟩],
   [],
   [⟨1, some 1, some 1, some 4, none, 1⟩, ⟨2, some 1, some 1, none, some 3, 2⟩],
   [⟨1, 7⟩],
   [(1, 2)],
   2, 3, 3, 2⟩

/-! ## C4: the message tagger tries the patterns in a fixed order -/

/-- C4: for every commit message, the tagger applies its patterns in the
fixed order (1) bug-number, (2) bracketed integer, (3) hash-prefixed
integer, (4) closing-verb sentence (the CPython 2.7 dict iteration order of
the `regexp` keys, which coincides with the source order of the literal),
and returns the captures of the first pattern that matches; in particular
the message "See [17] and #99" yields exactly [17]. -/
theorem tagger_first_pattern_wins :
    (∀ (s : String) (n : Nat),
      (reSearch matchBugAt s.data = some n → test_regexp s = [n]) ∧
      (reSearch matchBugAt s.data = none → reSearch matchBracketAt s.data = some n →
        test_regexp s = [n]) ∧
      (reSearch matchBugAt s.data = none → reSearch matchBracketAt s.data = none →
        reSearch matchHashAt s.data = some n → test_regexp s = [n]) ∧
      (reSearch matchBugAt s.data = none → reSearch matchBracketAt s.data = none →
        reSearch matchHashAt s.data = none → reSearch matchSentenceAt s.data = some n →
        test_regexp s = [n]) ∧
      (reSearch matchBugAt s.data = none → reSearch matchBracketAt s.data = none →
        reSearch matchHashAt s.data = none → reSearch matchSentenceAt s.data = none →
        test_regexp s = [])) ∧
    test_regexp "See [17] and #99" = [17] := by
  constructor
  · intro s n
    refine ⟨?_, ?_, ?_, ?_, ?_⟩ <;> intros <;> simp only [test_regexp, *]
  · decide

/-- Witness for C4: the hash pattern fires on "ref #99" because the two
earlier patterns fail there. -/
theorem tagger_first_pattern_wins_witness :
    test_regexp "ref #99" = [99] :=
  ((tagger_first_pattern_wins.1 "ref #99" 99).2.2.1 (by decide) (by decide) (by decide))

/-! ## List indexing lemmas for the cost matrix -/

lemma getD_append_left {α : Type} (l₁ l₂ : List α) (i : Nat) (d : α)
    (h : i < l₁.length) : (l₁ ++ l₂).getD i d = l₁.getD i d := by
  induction l₁ generalizing i with
  | nil => simp at h
  | cons a t ih =>
    cases i with
    | zero => rfl
    | succ k => simpa using ih k (by simpa using h)

lemma getD_append_right {α : Type} (l₁ l₂ : List α) (i : Nat) (d : α)
    (h : l₁.length ≤ i) : (l₁ ++ l₂).getD i d = l₂.getD (i - l₁.length) d := by
  induction l₁ generalizing i with
  | nil => simp
  | cons a t ih =>
    cases i with
    | zero => simp at h
    | succ k => simpa using ih k (by simpa using h)

lemma getD_map_of_lt {α β : Type} (g : α → β) (l : List α) (i : Nat) (d : β) (d0 : α)
    (h : i < l.length) : (l.map g).getD i d = g (l.getD i d0) := by
  induction l generalizing i with
  | nil => simp at h
  | cons a t ih =>
    cases i with
    | zero => rfl
    | succ k => simpa using ih k (by simpa using h)

lemma getD_take_of_lt {α : Type} (l : List α) (n i : Nat) (d : α)
    (h : i < n) : (l.take n).getD i d = l.getD i d := by
  induction l generalizing n i with
  | nil => simp
  | cons a t ih =>
    cases n with
    | zero => simp at h
    | succ m =>
      cases i with
      | zero => rfl
      | succ k => simpa using ih m k (by omega)

lemma getD_drop_add {α : Type} (l : List α) (m i : Nat) (d : α) :
    (l.drop m).getD i d = l.getD (m + i) d := by
  induction l generalizing m with
  | nil => simp
  | cons a t ih =>
    cases m with
    | zero => simp
    | succ k =>
      simp only [List.drop_succ_cons, Nat.succ_add, List.getD_cons_succ]
      exact ih k

lemma getD_mem_of_lt {α : Type} (l : List α) (i : Nat) (d : α)
    (h : i < l.length) : l.getD i d ∈ l := by
  induction l generalizing i with
  | nil => simp at h
  | cons a t ih =>
    cases i with
    | zero => simp [List.getD]
    | succ k => simpa using Or.inr (ih k (by simpa using h))

lemma getD_inj_of_nodup {α : Type} (l : List α) (h : l.Nodup) (i k : Nat) (d : α)
    (hi : i < l.length) (hk : k < l.length) (he : l.getD i d = l.getD k d) : i = k := by
  induction l generalizing i k with
  | nil => simp at hi
  | cons a t ih =>
    rcases List.nodup_cons.mp h with ⟨hna, hnd⟩
    cases i with
    | zero =>
      cases k with
      | zero => rfl
      | succ k2 =>
        exfalso
        have ha : a = t.getD k2 d := by simpa using he
        exact hna (by rw [ha]; exact getD_mem_of_lt t k2 d (by simpa using hk))
    | succ i2 =>
      cases k with
      | zero =>
        exfalso
        have ha : a = t.getD i2 d := by simpa using he.symm
        exact hna (by rw [ha]; exact getD_mem_of_lt t i2 d (by simpa using hi))
      | succ k2 =>
        have := ih hnd i2 k2 (by simpa using hi) (by simpa using hk) (by simpa using he)
        omega

lemma chunkFuel_getD {α : Type} (step : Nat) (hstep : step ≠ 0) :
    ∀ (i fuel : Nat) (l : List α), l.length ≤ fuel →
      (chunkFuel fuel step l).getD i [] = (l.drop (i * step)).take step := by
  intro i
  induction i with
  | zero =>
    intro fuel l hf
    cases l with
    | nil => cases fuel <;> simp [chunkFuel]
    | cons x xs =>
      cases fuel with
      | zero => simp at hf
      | succ f => simp [chunkFuel, hstep]
  | succ k ih =>
    intro fuel l hf
    cases l with
    | nil => cases fuel <;> simp [chunkFuel]
    | cons x xs =>
      cases fuel with
      | zero => simp at hf
      | succ f =>
        have hc : chunkFuel (f + 1) step (x :: xs) =
            (x :: xs).take step :: chunkFuel f step ((x :: xs).drop step) := by
          simp [chunkFuel, hstep]
        rw [hc, List.getD_cons_succ,
          ih f ((x :: xs).drop step)
            (by simp only [List.length_drop, List.length_cons] at hf ⊢; omega)]
        congr 1
        rw [List.drop_drop]
        congr 1
        ring

lemma chunk_getD {α : Type} (step : Nat) (hstep : step ≠ 0)
    (i : Nat) (l : List α) :
    (chunk step l).getD i [] = (l.drop (i * step)).take step :=
  chunkFuel_getD step hstep i l.length l (Nat.le_refl _)

lemma product_map_getD (f : (String × Nat) × (String × Nat) → ℚ)
    (dels adds : List (String × Nat)) (i j : Nat)
    (hi : i < dels.length) (hj : j < adds.length) :
    ((dels.product adds).map f).getD (i * adds.length + j) 0 =
      f (dels.getD i ("", 0), adds.getD j ("", 0)) := by
  induction dels generalizing i with
  | nil => simp at hi
  | cons d ds ih =>
    have hprod : (d :: ds).product adds =
        adds.map (fun b => (d, b)) ++ ds.product adds := rfl
    rw [hprod, List.map_append, List.map_map]
    cases i with
    | zero =>
      rw [getD_append_left _ _ _ _ (by simpa using hj)]
      simp only [Nat.zero_mul, Nat.zero_add]
      rw [getD_map_of_lt _ _ _ _ ("", 0) hj]
      rfl
    | succ k =>
      have hlen : (adds.map (f ∘ fun b => (d, b))).length ≤ Nat.succ k * adds.length + j := by
        simp only [List.length_map]
        calc adds.length ≤ Nat.succ k * adds.length := by
              have := Nat.succ_mul k adds.length
              omega
          _ ≤ Nat.succ k * adds.length + j := by omega
      rw [getD_append_right _ _ _ _ hlen]
      have harith : Nat.succ k * adds.length + j - (adds.map (f ∘ fun b => (d, b))).length =
          k * adds.length + j := by
        simp only [List.length_map]
        have := Nat.succ_mul k adds.length
        omega
      rw [harith, ih k (by simpa using hi)]
      rfl

/-- Each in-range entry of the reshaped cost matrix is the normalized
Levenshtein distance of the corresponding deletion and addition bodies. -/
lemma mget_costMatrix (dels adds : List (String × Nat)) (i j : Nat)
    (hi : i < dels.length) (hj : j < adds.length) :
    mget (costMatrix dels adds) i j =
      norm_lev (dels.getD i ("", 0)).1 (adds.getD j ("", 0)).1 := by
  have hL : adds.length ≠ 0 := by omega
  unfold mget costMatrix
  rw [chunk_getD adds.length hL i, getD_take_of_lt _ _ _ _ hj, getD_drop_add,
    product_map_getD (fun p => norm_lev p.1.1 p.2.1) dels adds i j hi hj]

/-! ## The normalized distance of identical strings is zero -/

/-- The normalized cost is the exact rational division of the spec. -/
lemma norm_lev_eq_div (a b : String) :
    norm_lev a b = (levenshtein a.data b.data : ℚ) / ((max a.length b.length : Nat) : ℚ) := by
  simp [norm_lev, Rat.divInt_eq_div]

/-- The retention threshold of the source, 0.4, as a rational. -/
lemma divInt_two_five : (Rat.divInt 2 5 : ℚ) = 2 / 5 := by
  simp [Rat.divInt_eq_div]

lemma levFuel_self : ∀ (fuel : Nat) (l : List Char), l.length ≤ fuel → levFuel fuel l l = 0
  | _, [], _ => by simp [levFuel]
  | 0, c :: cs, h => absurd h (by simp)
  | fuel + 1, c :: cs, h => by
    rw [levFuel]
    simpa using levFuel_self fuel cs (by simpa using h)

lemma levenshtein_self (l : List Char) : levenshtein l l = 0 :=
  levFuel_self (l.length + l.length) l (by omega)

lemma norm_lev_self (a : String) : norm_lev a a = 0 := by
  simp [norm_lev, levenshtein_self]

/-! ## C1: the threshold filter on assignment pairs -/

/-- C1: a pair (i, j) produced by the assignment solver over the cost
matrix is retained as a Changed pair iff its normalized Levenshtein cost
lies strictly between 0 and 0.4 (recorded through the old-side and new-side
indices of the two vectors); in particular a deletion whose body is
identical to its assigned addition (cost 0) is never retained.  The index
components of the two vectors are assumed distinct (they are enumeration
positions in the source) and the solver is assumed to return in-range
pairs (the Hungarian algorithm returns an assignment of the matrix). -/
theorem changed_pair_cost_interval
    (solver : List (List ℚ) → List (Nat × Nat))
    (dels adds : List (String × Nat))
    (hnd : (dels.map Prod.snd).Nodup) (hna : (adds.map Prod.snd).Nodup)
    (hbound : ∀ p ∈ solver (costMatrix dels adds), p.1 < dels.length ∧ p.2 < adds.length)
    (i j : Nat) (hi : i < dels.length) (hj : j < adds.length)
    (hmem : (i, j) ∈ solver (costMatrix dels adds)) :
    (((dels.getD i ("", 0)).2, (adds.getD j ("", 0)).2) ∈ changedLines solver dels adds ↔
      (0 < norm_lev (dels.getD i ("", 0)).1 (adds.getD j ("", 0)).1 ∧
        norm_lev (dels.getD i ("", 0)).1 (adds.getD j ("", 0)).1 < Rat.divInt 2 5)) ∧
    ((dels.getD i ("", 0)).1 = (adds.getD j ("", 0)).1 →
      ((dels.getD i ("", 0)).2, (adds.getD j ("", 0)).2) ∉ changedLines solver dels adds) := by
  have hcond : dels.length ≠ 0 ∧ adds.length ≠ 0 := ⟨by omega, by omega⟩
  have hiff : ((dels.getD i ("", 0)).2, (adds.getD j ("", 0)).2) ∈
        changedLines solver dels adds ↔
      (0 < norm_lev (dels.getD i ("", 0)).1 (adds.getD j ("", 0)).1 ∧
        norm_lev (dels.getD i ("", 0)).1 (adds.getD j ("", 0)).1 < Rat.divInt 2 5) := by
    unfold changedLines
    rw [if_pos hcond]
    constructor
    · intro hmem2
      rcases List.mem_map.mp hmem2 with ⟨p, hpf, hpeq⟩
      rcases List.mem_filter.mp hpf with ⟨hpmem, hpcond⟩
      rcases hbound p hpmem with ⟨hb1, hb2⟩
      have he1 : (dels.getD p.1 ("", 0)).2 = (dels.getD i ("", 0)).2 ∧
          (adds.getD p.2 ("", 0)).2 = (adds.getD j ("", 0)).2 := by
        rw [Prod.mk.injEq] at hpeq
        exact hpeq
      have he2 := he1.2
      have he1 := he1.1
      have hp1 : p.1 = i := by
        apply getD_inj_of_nodup _ hnd p.1 i 0 (by simpa using hb1) (by simpa using hi)
        rw [getD_map_of_lt _ _ _ _ ("", 0) hb1, getD_map_of_lt _ _ _ _ ("", 0) hi]
        exact he1
      have hp2 : p.2 = j := by
        apply getD_inj_of_nodup _ hna p.2 j 0 (by simpa using hb2) (by simpa using hj)
        rw [getD_map_of_lt _ _ _ _ ("", 0) hb2, getD_map_of_lt _ _ _ _ ("", 0) hj]
        exact he2
      rw [hp1, hp2, mget_costMatrix dels adds i j hi hj] at hpcond
      simpa using hpcond
    · intro hcost
      apply List.mem_map.mpr
      refine ⟨(i, j), List.mem_filter.mpr ⟨hmem, ?_⟩, rfl⟩
      rw [mget_costMatrix dels adds i j hi hj]
      simpa using hcost
  refine ⟨hiff, fun heq hmem2 => ?_⟩
  have hc := hiff.mp hmem2
  rw [heq, norm_lev_self] at hc
  exact absurd hc.1 (lt_irrefl 0)

/-- Witness for C1: with the one-pair solver, deletions ["abc"] and
additions ["abd"] (cost 1/3, inside the open interval), the pair of
recorded indices (0, 1) is retained. -/
theorem changed_pair_cost_interval_witness :
    ((0 : Nat), (1 : Nat)) ∈ changedLines (fun _ => [(0, 0)]) [("abc", 0)] [("abd", 1)] :=
  (changed_pair_cost_interval (fun _ => [(0, 0)]) [("abc", 0)] [("abd", 1)]
    (by decide) (by decide) (by decide) 0 0 (by decide) (by decide) (by decide)).1.mpr
    (by constructor <;> decide)

/-! ## C7: an empty side means no changed pairs and all-pure edits -/

/-- C7: when the deletion vector or the addition vector is empty, the
Changed set is empty and the emission classifies every deletion as a pure
deletion and every addition as a pure addition. -/
theorem empty_side_all_pure
    (solver : List (List ℚ) → List (Nat × Nat))
    (dels adds : List (String × Nat)) (old_start new_start : Nat)
    (h : dels = [] ∨ adds = []) :
    changedLines solver dels adds = [] ∧
    emitBodies old_start new_start (changedLines solver dels adds) dels adds =
      dels.map (fun q => (some (old_start + q.2), none)) ++
        adds.map (fun q => (none, some (new_start + q.2))) := by
  have hc : changedLines solver dels adds = [] := by
    unfold changedLines
    rcases h with h | h <;> simp [h]
  refine ⟨hc, ?_⟩
  rw [hc]
  simp [emitBodies, List.filter_true]

/-- Witness for C7: an empty deletion vector with one addition yields no
changed pair and a single pure addition. -/
theorem empty_side_all_pure_witness :
    changedLines (fun _ => []) [] [("a", 2)] = [] ∧
    emitBodies 3 4 (changedLines (fun _ => []) [] [("a", 2)]) [] [("a", 2)] =
      [(none, some 6)] := by
  have h := empty_side_all_pure (fun _ => []) [] [("a", 2)] 3 4 (Or.inl rfl)
  exact ⟨h.1, by rw [h.2]; rfl⟩

/-! ## Emission characterization (for C6 and C5) -/

/-- Membership characterization of the emitted (old_line, new_line) pairs:
exactly the changed pairs shifted by the start lines, the unmatched
deletions with a null new side, and the unmatched additions with a null
old side. -/
lemma mem_emitBodies (os ns : Nat) (changed : List (Nat × Nat))
    (dels adds : List (String × Nat)) (a b : Option Nat) :
    (a, b) ∈ emitBodies os ns changed dels adds ↔
      ((∃ q ∈ changed, a = some (os + q.1) ∧ b = some (ns + q.2)) ∨
       (∃ q ∈ dels, q.2 ∉ changed.map Prod.fst ∧ a = some (os + q.2) ∧ b = none) ∨
       (∃ q ∈ adds, q.2 ∉ changed.map Prod.snd ∧ a = none ∧ b = some (ns + q.2))) := by
  unfold emitBodies
  constructor
  · intro hmem
    rcases List.mem_append.mp hmem with hmem12 | hmem
    · rcases List.mem_append.mp hmem12 with hmem | hmem
      · rcases List.mem_map.mp hmem with ⟨q, hq, heq⟩
        rw [Prod.mk.injEq] at heq
        exact Or.inl ⟨q, hq, heq.1.symm, heq.2.symm⟩
      · rcases List.mem_map.mp hmem with ⟨q, hqf, heq⟩
        rcases List.mem_filter.mp hqf with ⟨hq, hdec⟩
        rw [Prod.mk.injEq] at heq
        exact Or.inr (Or.inl ⟨q, hq, by simpa using hdec, heq.1.symm, heq.2.symm⟩)
    · rcases List.mem_map.mp hmem with ⟨q, hqf, heq⟩
      rcases List.mem_filter.mp hqf with ⟨hq, hdec⟩
      rw [Prod.mk.injEq] at heq
      exact Or.inr (Or.inr ⟨q, hq, by simpa using hdec, heq.1.symm, heq.2.symm⟩)
  · rintro (⟨q, hq, ha, hb⟩ | ⟨q, hq, hnc, ha, hb⟩ | ⟨q, hq, hnc, ha, hb⟩)
    · subst ha; subst hb
      exact List.mem_append.mpr (Or.inl (List.mem_append.mpr (Or.inl
        (List.mem_map.mpr ⟨q, hq, rfl⟩))))
    · subst ha; subst hb
      exact List.mem_append.mpr (Or.inl (List.mem_append.mpr (Or.inr
        (List.mem_map.mpr ⟨q, List.mem_filter.mpr ⟨hq, by simpa using hnc⟩, rfl⟩))))
    · subst ha; subst hb
      exact List.mem_append.mpr (Or.inr
        (List.mem_map.mpr ⟨q, List.mem_filter.mpr ⟨hq, by simpa using hnc⟩, rfl⟩))

/-- Unfolding equation for `buildHunk` (the let bindings written out). -/
lemma buildHunk_eq (solver : List (List ℚ) → List (Nat × Nat)) (cid : Nat)
    (st : Store) (h : Hunk) :
    buildHunk solver cid st h =
      (hunkEditBodies solver h).foldl
        (editStep (some (st.getFile h.old_file).1.id)
          (some ((st.getFile h.old_file).2.getFile h.new_file).1.id) cid)
        ((st.getFile h.old_file).2.getFile h.new_file).2 := rfl

/-- Unfolding equation for `buildParent` when the diff has no hunks. -/
lemma buildParent_eq_none (solver : List (List ℚ) → List (Nat × Nat)) (cid : Nat)
    (st : Store) (p : ParentData) (hp : p.hunks = none) :
    buildParent solver cid st p =
      { (st.getCommit p.hex p.commit_time).2 with
        commitParents := insertPair (st.getCommit p.hex p.commit_time).2.commitParents
          ((st.getCommit p.hex p.commit_time).1.id, cid) } := by
  rcases p with ⟨hx, tm, hk⟩
  cases hp
  rfl

/-- Unfolding equation for `buildParent` when the diff has hunks. -/
lemma buildParent_eq_some (solver : List (List ℚ) → List (Nat × Nat)) (cid : Nat)
    (st : Store) (p : ParentData) (hs : List Hunk) (hp : p.hunks = some hs) :
    buildParent solver cid st p =
      (processedHunks hs).foldl (buildHunk solver cid)
        { (st.getCommit p.hex p.commit_time).2 with
          commitParents := insertPair (st.getCommit p.hex p.commit_time).2.commitParents
            ((st.getCommit p.hex p.commit_time).1.id, cid) } := by
  rcases p with ⟨hx, tm, hk⟩
  cases hp
  rfl

/-- Unfolding equation for `buildCommit` (the let bindings written out). -/
lemma buildCommit_eq (solver : List (List ℚ) → List (Nat × Nat))
    (st : Store) (c : CommitData) :
    buildCommit solver st c =
      c.parents.foldl (buildParent solver (st.getCommit c.hex c.commit_time).1.id)
        ((test_regexp c.message).foldl (bugStep (st.getCommit c.hex c.commit_time).1.id)
          (st.getCommit c.hex c.commit_time).2) := rfl

lemma getFile_edits (st : Store) (p : String) : (st.getFile p).2.edits = st.edits := by
  unfold Store.getFile
  cases st.findFile p <;> simp

lemma getCommit_edits (st : Store) (hex : String) (d : Int) :
    (st.getCommit hex d).2.edits = st.edits := by
  unfold Store.getCommit
  cases st.findCommit hex <;> simp

lemma getBug_edits (st : Store) (no : Nat) : (st.getBug no).2.edits = st.edits := by
  unfold Store.getBug
  cases st.findBug no <;> simp

lemma editStep_edits (oF nF : Option Nat) (cid : Nat) (st : Store)
    (b : Option Nat × Option Nat) :
    (editStep oF nF cid st b).edits =
      st.edits ++ [⟨st.nextEditId, oF, nF, b.1, b.2, cid⟩] := rfl

/-- Every edit row present after the per-hunk insertion loop was already
present or is one of the freshly inserted rows for some emitted body. -/
lemma mem_foldl_addEdit_forward (oF nF : Option Nat) (cid : Nat) :
    ∀ (bodies : List (Option Nat × Option Nat)) (st : Store) (e : EditRow),
      e ∈ (bodies.foldl (editStep oF nF cid) st).edits →
      e ∈ st.edits ∨ ∃ b ∈ bodies,
        e.old_file_id = oF ∧ e.new_file_id = nF ∧ e.old_line = b.1 ∧
        e.new_line = b.2 ∧ e.commit_id = cid := by
  intro bodies
  induction bodies with
  | nil => intro st e h; exact Or.inl h
  | cons b bs ih =>
    intro st e h
    rw [List.foldl_cons] at h
    rcases ih _ e h with hmem | ⟨b2, hb2, hrest⟩
    · rw [editStep_edits] at hmem
      rcases List.mem_append.mp hmem with hmem | hmem
      · exact Or.inl hmem
      · have he : e = ⟨st.nextEditId, oF, nF, b.1, b.2, cid⟩ := by simpa using hmem
        exact Or.inr ⟨b, List.mem_cons_self b bs,
          by rw [he]; exact ⟨rfl, rfl, rfl, rfl, rfl⟩⟩
    · exact Or.inr ⟨b2, List.mem_cons_of_mem b hb2, hrest⟩

lemma mem_foldl_addEdit_mono (oF nF : Option Nat) (cid : Nat) :
    ∀ (bodies : List (Option Nat × Option Nat)) (st : Store) (e : EditRow),
      e ∈ st.edits →
      e ∈ (bodies.foldl (editStep oF nF cid) st).edits := by
  intro bodies
  induction bodies with
  | nil => intro st e h; exact h
  | cons b bs ih =>
    intro st e h
    rw [List.foldl_cons]
    refine ih _ e ?_
    rw [editStep_edits]
    exact List.mem_append.mpr (Or.inl h)

/-- Every emitted body gets a fresh edit row carrying the hunk's file
references and the commit. -/
lemma mem_foldl_addEdit_complete (oF nF : Option Nat) (cid : Nat) :
    ∀ (bodies : List (Option Nat × Option Nat)) (st : Store) (b : Option Nat × Option Nat),
      b ∈ bodies →
      ∃ e ∈ (bodies.foldl (editStep oF nF cid) st).edits,
        e.old_file_id = oF ∧ e.new_file_id = nF ∧ e.old_line = b.1 ∧
        e.new_line = b.2 ∧ e.commit_id = cid := by
  intro bodies
  induction bodies with
  | nil => intro st b h; simp at h
  | cons b0 bs ih =>
    intro st b h
    rcases List.mem_cons.mp h with rfl | h
    · refine ⟨⟨st.nextEditId, oF, nF, b.1, b.2, cid⟩, ?_, rfl, rfl, rfl, rfl, rfl⟩
      rw [List.foldl_cons]
      refine mem_foldl_addEdit_mono oF nF cid bs _ _ ?_
      rw [editStep_edits]
      exact List.mem_append.mpr (Or.inr (by simp))
    · rw [List.foldl_cons]
      exact ih _ b h

/-! ## C6: line numbers of the emitted edits -/

/-- C6: per processed hunk, an (old_line, new_line) pair is emitted iff it
is a changed pair (old_start + i, new_start + j), an unmatched deletion
(old_start + i, null), or an unmatched addition (null, new_start + j);
every edit row `buildHunk` inserts carries the current commit and the
hunk's old and new file references and one of the emitted bodies, and
every emitted body is inserted as such a row. -/
theorem hunk_emission_lines (solver : List (List ℚ) → List (Nat × Nat)) :
    (∀ (h : Hunk) (a b : Option Nat),
      ((a, b) ∈ hunkEditBodies solver h ↔
        ((∃ q ∈ changedLines solver (hunkDeletions h) (hunkAdditions h),
            a = some (h.old_start + q.1) ∧ b = some (h.new_start + q.2)) ∨
         (∃ q ∈ hunkDeletions h,
            q.2 ∉ (changedLines solver (hunkDeletions h) (hunkAdditions h)).map Prod.fst ∧
            a = some (h.old_start + q.2) ∧ b = none) ∨
         (∃ q ∈ hunkAdditions h,
            q.2 ∉ (changedLines solver (hunkDeletions h) (hunkAdditions h)).map Prod.snd ∧
            a = none ∧ b = some (h.new_start + q.2))))) ∧
    (∀ (st : Store) (cid : Nat) (h : Hunk) (e : EditRow),
      e ∈ (buildHunk solver cid st h).edits →
      e ∈ st.edits ∨
        (e.old_file_id = some (st.getFile h.old_file).1.id ∧
         e.new_file_id = some ((st.getFile h.old_file).2.getFile h.new_file).1.id ∧
         (e.old_line, e.new_line) ∈ hunkEditBodies solver h ∧
         e.commit_id = cid)) ∧
    (∀ (st : Store) (cid : Nat) (h : Hunk) (p : Option Nat × Option Nat),
      p ∈ hunkEditBodies solver h →
      ∃ e ∈ (buildHunk solver cid st h).edits,
        e.old_file_id = some (st.getFile h.old_file).1.id ∧
        e.new_file_id = some ((st.getFile h.old_file).2.getFile h.new_file).1.id ∧
        e.old_line = p.1 ∧ e.new_line = p.2 ∧ e.commit_id = cid) := by
  refine ⟨?_, ?_, ?_⟩
  · intro h a b
    exact mem_emitBodies h.old_start h.new_start
      (changedLines solver (hunkDeletions h) (hunkAdditions h))
      (hunkDeletions h) (hunkAdditions h) a b
  · intro st cid h e hmem
    unfold buildHunk at hmem
    rcases mem_foldl_addEdit_forward _ _ _ _ _ _ hmem with hmem | ⟨b, hb, h1, h2, h3, h4, h5⟩
    · rw [getFile_edits, getFile_edits] at hmem
      exact Or.inl hmem
    · refine Or.inr ⟨h1, h2, ?_, h5⟩
      rw [h3, h4]
      exact hb
  · intro st cid h p hp
    unfold buildHunk
    exact mem_foldl_addEdit_complete _ _ _ _ _ _ hp

/-- Witness for C6: on the concrete hunk the single changed pair (0, 0)
yields the edit row with old_line 1 + 0 and new_line 1 + 0, carrying file 1
on both sides and commit 5. -/
theorem hunk_emission_lines_witness :
    (⟨1, some 1, some 1, some 1, some 1, 5⟩ : EditRow) ∈
      (buildHunk solverEx 5 emptyStore hunkEx).edits ∧
    ((⟨1, some 1, some 1, some 1, some 1, 5⟩ : EditRow) ∈ emptyStore.edits ∨
      ((⟨1, some 1, some 1, some 1, some 1, 5⟩ : EditRow).old_file_id =
          some (emptyStore.getFile hunkEx.old_file).1.id ∧
       (⟨1, some 1, some 1, some 1, some 1, 5⟩ : EditRow).new_file_id =
          some ((emptyStore.getFile hunkEx.old_file).2.getFile hunkEx.new_file).1.id ∧
       ((⟨1, some 1, some 1, some 1, some 1, 5⟩ : EditRow).old_line,
        (⟨1, some 1, some 1, some 1, some 1, 5⟩ : EditRow).new_line) ∈
          hunkEditBodies solverEx hunkEx ∧
       (⟨1, some 1, some 1, some 1, some 1, 5⟩ : EditRow).commit_id = 5)) :=
  ⟨by decide, (hunk_emission_lines solverEx).2.1 emptyStore 5 hunkEx _ (by decide)⟩

/-! ## C5: persisted edit rows are well formed -/

lemma bodies_shape (solver : List (List ℚ) → List (Nat × Nat)) (h : Hunk)
    (p : Option Nat × Option Nat) (hp : p ∈ hunkEditBodies solver h) :
    (p.1 ≠ none ∧ p.2 = none) ∨ (p.1 = none ∧ p.2 ≠ none) ∨ (p.1 ≠ none ∧ p.2 ≠ none) := by
  rcases p with ⟨a, b⟩
  rcases (mem_emitBodies _ _ _ _ _ a b).mp hp with ⟨q, _, ha, hb⟩ | ⟨q, _, _, ha, hb⟩ |
    ⟨q, _, _, ha, hb⟩
  · exact Or.inr (Or.inr (by simp [ha, hb]))
  · exact Or.inl (by simp [ha, hb])
  · exact Or.inr (Or.inl (by simp [ha, hb]))

/-- A generic fold-preservation helper. -/
lemma foldl_preserve {β : Type} (P : Store → Prop) (f : Store → β → Store)
    (hf : ∀ s x, P s → P (f s x)) :
    ∀ (l : List β) (s : Store), P s → P (l.foldl f s) := by
  intro l
  induction l with
  | nil => intro s hs; exact hs
  | cons x xs ih => intro s hs; exact ih _ (hf s x hs)

lemma wf_edits_foldl_addEdit (oF nF : Option Nat) (cid : Nat) :
    ∀ (bodies : List (Option Nat × Option Nat)) (st : Store),
      (∀ b ∈ bodies,
        (b.1 ≠ none ∧ b.2 = none) ∨ (b.1 = none ∧ b.2 ≠ none) ∨ (b.1 ≠ none ∧ b.2 ≠ none)) →
      (∀ e ∈ st.edits, wellFormedEdit e) →
      ∀ e ∈ (bodies.foldl (editStep oF nF cid) st).edits,
        wellFormedEdit e := by
  intro bodies
  induction bodies with
  | nil => intro st _ h0; exact h0
  | cons b bs ih =>
    intro st hsh h0
    rw [List.foldl_cons]
    refine ih _ (fun b2 hb2 => hsh b2 (List.mem_cons_of_mem b hb2)) ?_
    intro e he
    rw [editStep_edits] at he
    rcases List.mem_append.mp he with he | he
    · exact h0 e he
    · have heq : e = ⟨st.nextEditId, oF, nF, b.1, b.2, cid⟩ := by simpa using he
      have hb := hsh b (List.mem_cons_self b bs)
      rw [heq]
      exact hb

lemma wf_edits_buildHunk (solver : List (List ℚ) → List (Nat × Nat)) (cid : Nat)
    (st : Store) (h : Hunk) (h0 : ∀ e ∈ st.edits, wellFormedEdit e) :
    ∀ e ∈ (buildHunk solver cid st h).edits, wellFormedEdit e := by
  unfold buildHunk
  refine wf_edits_foldl_addEdit _ _ _ _ _ (fun p hp => bodies_shape solver h p hp) ?_
  rw [getFile_edits, getFile_edits]
  exact h0

lemma bugStep_edits (cid : Nat) (st : Store) (n : Nat) :
    (bugStep cid st n).edits = st.edits := by
  unfold bugStep
  simp [getBug_edits]

lemma bug_fold_edits (cid : Nat) :
    ∀ (ns : List Nat) (st : Store),
      (ns.foldl (bugStep cid) st).edits = st.edits := by
  intro ns
  induction ns with
  | nil => intro st; rfl
  | cons n tl ih =>
    intro st
    rw [List.foldl_cons, ih, bugStep_edits]

lemma wf_edits_buildParent (solver : List (List ℚ) → List (Nat × Nat)) (cid : Nat)
    (st : Store) (p : ParentData) (h0 : ∀ e ∈ st.edits, wellFormedEdit e) :
    ∀ e ∈ (buildParent solver cid st p).edits, wellFormedEdit e := by
  unfold buildParent
  have h1 : ∀ e ∈ (st.getCommit p.hex p.commit_time).2.edits, wellFormedEdit e := by
    rw [getCommit_edits]; exact h0
  cases p.hunks with
  | none => exact h1
  | some hs =>
    exact foldl_preserve (fun s => ∀ e ∈ s.edits, wellFormedEdit e) _
      (fun s x hx => wf_edits_buildHunk solver cid s x hx) (processedHunks hs) _ h1

lemma wf_edits_buildCommit (solver : List (List ℚ) → List (Nat × Nat))
    (st : Store) (c : CommitData) (h0 : ∀ e ∈ st.edits, wellFormedEdit e) :
    ∀ e ∈ (buildCommit solver st c).edits, wellFormedEdit e := by
  have h1 : ∀ e ∈ ((test_regexp c.message).foldl
      (bugStep (st.getCommit c.hex c.commit_time).1.id)
      (st.getCommit c.hex c.commit_time).2).edits, wellFormedEdit e := by
    rw [bug_fold_edits, getCommit_edits]
    exact h0
  rw [buildCommit_eq]
  exact foldl_preserve (fun s => ∀ e ∈ s.edits, wellFormedEdit e) _
    (fun s x hx => wf_edits_buildParent solver _ s x hx) c.parents _ h1

/-- C5: every edit row ever persisted by ingestion satisfies exactly one of
the three shapes: deletion (old_line non-null, new_line null), addition
(old_line null, new_line non-null) or change (both non-null); in no row are
both sides null (the three disjuncts of `wellFormedEdit` are pairwise
exclusive and each excludes the doubly-null row). -/
theorem edit_rows_well_formed (solver : List (List ℚ) → List (Nat × Nat))
    (repo : List CommitData) (st : Store)
    (h0 : ∀ e ∈ st.edits, wellFormedEdit e) :
    ∀ e ∈ (build solver repo st).edits, wellFormedEdit e := by
  unfold build
  exact foldl_preserve (fun s => ∀ e ∈ s.edits, wellFormedEdit e) _
    (fun s x hx => wf_edits_buildCommit solver s x hx) repo st h0

/-- Witness for C5: the concrete two-commit ingestion from the empty store
yields only well-formed edit rows. -/
theorem edit_rows_well_formed_witness :
    (∀ e ∈ emptyStore.edits, wellFormedEdit e) ∧
    (∀ e ∈ (build solverEx repoEx emptyStore).edits, wellFormedEdit e) :=
  ⟨by simp [emptyStore], edit_rows_well_formed solverEx repoEx emptyStore (by simp [emptyStore])⟩

/-! ## C8: the hunk filter consults only the old path's extension -/

/-- C8 counterexample: a hunk whose old path is a C file passes the
extension filter and is processed, yet produces no Edits because its line
stream has only a context line; so "a hunk produces Edits iff its old
extension is allowed" fails in the left-to-right reading "allowed implies
some Edits". -/
theorem allowed_hunk_no_edits :
    hunkAllowed ⟨"a.c", "b.txt", 1, 1, [("x", LineTag.context)]⟩ = true ∧
    processedHunks [⟨"a.c", "b.txt", 1, 1, [("x", LineTag.context)]⟩] =
      [⟨"a.c", "b.txt", 1, 1, [("x", LineTag.context)]⟩] ∧
    (buildParent solverEx 1 emptyStore
      ⟨"p", 0, some [⟨"a.c", "b.txt", 1, 1, [("x", LineTag.context)]⟩]⟩).edits = [] := by
  exact ⟨by decide, by decide, by decide⟩

/-- C8 (amended): a hunk is selected for processing iff its old path's
splitext extension is ".c" or ".h"; the decision never consults the new
path; a parent all of whose hunks are disallowed contributes no edit rows
(a selected hunk may still emit zero Edits when its stream has no addition
or deletion line). -/
theorem hunk_filter_old_ext_only :
    (∀ (hs : List Hunk) (h : Hunk),
      (h ∈ processedHunks hs ↔
        h ∈ hs ∧ (splitextExt h.old_file = ".c" ∨ splitextExt h.old_file = ".h"))) ∧
    (∀ (o n n2 : String) (os ns : Nat) (d : List (String × LineTag)),
      hunkAllowed ⟨o, n, os, ns, d⟩ = hunkAllowed ⟨o, n2, os, ns, d⟩) ∧
    (∀ (solver : List (List ℚ) → List (Nat × Nat)) (cid : Nat) (st : Store)
      (p : ParentData) (hs : List Hunk),
      p.hunks = some hs → (∀ h ∈ hs, hunkAllowed h = false) →
      (buildParent solver cid st p).edits = st.edits) := by
  refine ⟨?_, ?_, ?_⟩
  · intro hs h
    simp [processedHunks, List.mem_filter, hunkAllowed]
  · intro o n n2 os ns d
    rfl
  · intro solver cid st p hs hp hall
    rw [buildParent_eq_some solver cid st p hs hp]
    have hnil : processedHunks hs = [] := by
      simp only [processedHunks, List.filter_eq_nil_iff]
      intro h hh
      simp [hall h hh]
    rw [hnil]
    simp only [List.foldl_nil]
    rw [getCommit_edits]

/-- Witness for C8 (amended): a hunk renamed from "a.txt" to "b.c" is
skipped entirely, leaving the edits table untouched. -/
theorem hunk_filter_old_ext_only_witness :
    ((⟨"p", 0, some [⟨"a.txt", "b.c", 1, 1, [("x", LineTag.deletion)]⟩]⟩ : ParentData).hunks =
      some [⟨"a.txt", "b.c", 1, 1, [("x", LineTag.deletion)]⟩]) ∧
    (∀ h ∈ [(⟨"a.txt", "b.c", 1, 1, [("x", LineTag.deletion)]⟩ : Hunk)],
      hunkAllowed h = false) ∧
    (buildParent solverEx 3 emptyStore
      ⟨"p", 0, some [⟨"a.txt", "b.c", 1, 1, [("x", LineTag.deletion)]⟩]⟩).edits =
      emptyStore.edits :=
  ⟨rfl, by decide,
    hunk_filter_old_ext_only.2.2 solverEx 3 emptyStore
      ⟨"p", 0, some [⟨"a.txt", "b.c", 1, 1, [("x", LineTag.deletion)]⟩]⟩
      [⟨"a.txt", "b.c", 1, 1, [("x", LineTag.deletion)]⟩] rfl (by decide)⟩

/-! ## Resolver lemmas (for C2, C9, C10) -/

lemma pickLatest_ne_none (c : CommitRow) (cs : List CommitRow) :
    pickLatest (c :: cs) ≠ none := by
  have heq : pickLatest (c :: cs) =
      (match pickLatest cs with
       | none => some c
       | some b => if c.date < b.date then some b else some c) := rfl
  rw [heq]
  cases pickLatest cs with
  | none => simp
  | some b =>
    by_cases hd : c.date < b.date <;> simp [hd]

/-- Soundness of the latest-commit pick: the result is a member of the
candidate list of maximal date. -/
lemma pickLatest_spec :
    ∀ (l : List CommitRow) (c : CommitRow), pickLatest l = some c →
      c ∈ l ∧ ∀ b ∈ l, b.date ≤ c.date := by
  intro l
  induction l with
  | nil => intro c h; exact absurd h (by simp [pickLatest])
  | cons a tl ih =>
    intro c h
    have heq : pickLatest (a :: tl) =
        (match pickLatest tl with
         | none => some a
         | some b => if a.date < b.date then some b else some a) := rfl
    rw [heq] at h
    cases htl : pickLatest tl with
    | none =>
      rw [htl] at h
      have hc : a = c := by simpa using h
      cases tl with
      | nil =>
        subst hc
        exact ⟨List.mem_cons_self a [], by intro b hb; simp at hb; rw [hb]⟩
      | cons x xs => exact absurd htl (pickLatest_ne_none x xs)
    | some b =>
      rw [htl] at h
      have h2 : (if a.date < b.date then some b else some a) = some c := h
      rcases ih b htl with ⟨hbmem, hbmax⟩
      by_cases hd : a.date < b.date
      · rw [if_pos hd] at h2
        have hc : b = c := by simpa using h2
        subst hc
        refine ⟨List.mem_cons_of_mem a hbmem, ?_⟩
        intro x hx
        rcases List.mem_cons.mp hx with rfl | hx
        · exact le_of_lt hd
        · exact hbmax x hx
      · rw [if_neg hd] at h2
        have hc : a = c := by simpa using h2
        subst hc
        refine ⟨List.mem_cons_self a tl, ?_⟩
        intro x hx
        rcases List.mem_cons.mp hx with rfl | hx
        · exact le_refl _
        · exact le_trans (hbmax x hx) (not_lt.mp hd)

lemma mem_insertCommitRow (l : List CommitRow) (b c : CommitRow) :
    c ∈ insertCommitRow l b ↔ c ∈ l ∨ c = b := by
  unfold insertCommitRow
  by_cases hb : b ∈ l
  · rw [if_pos hb]
    constructor
    · exact Or.inl
    · rintro (h | rfl)
      · exact h
      · exact hb
  · rw [if_neg hb]
    simp

lemma mem_foldl_patchStep (st : Store) (fixd : Int) :
    ∀ (es : List EditRow) (acc : List CommitRow) (c : CommitRow),
      c ∈ es.foldl (patchStep st fixd) acc ↔
        c ∈ acc ∨ ∃ e ∈ es, pickLatest (originCandidates st fixd e) = some c := by
  intro es
  induction es with
  | nil => intro acc c; simp
  | cons e tl ih =>
    intro acc c
    rw [List.foldl_cons, ih]
    cases hp : pickLatest (originCandidates st fixd e) with
    | none =>
      have hstep : patchStep st fixd acc e = acc := by simp [patchStep, hp]
      rw [hstep]
      constructor
      · rintro (h | ⟨e2, he2, hc⟩)
        · exact Or.inl h
        · exact Or.inr ⟨e2, List.mem_cons_of_mem e he2, hc⟩
      · rintro (h | ⟨e2, he2, hc⟩)
        · exact Or.inl h
        · rcases List.mem_cons.mp he2 with rfl | he2
          · rw [hp] at hc
            exact absurd hc (by simp)
          · exact Or.inr ⟨e2, he2, hc⟩
    | some r =>
      have hstep : patchStep st fixd acc e = insertCommitRow acc r := by
        simp [patchStep, hp]
      rw [hstep]
      constructor
      · rintro (h | ⟨e2, he2, hc⟩)
        · rcases (mem_insertCommitRow acc r c).mp h with h | rfl
          · exact Or.inl h
          · exact Or.inr ⟨e, List.mem_cons_self e tl, hp⟩
        · exact Or.inr ⟨e2, List.mem_cons_of_mem e he2, hc⟩
      · rintro (h | ⟨e2, he2, hc⟩)
        · exact Or.inl ((mem_insertCommitRow acc r c).mpr (Or.inl h))
        · rcases List.mem_cons.mp he2 with rfl | he2
          · rw [hp] at hc
            have hrc : r = c := by simpa using hc
            exact Or.inl ((mem_insertCommitRow acc r c).mpr (Or.inr hrc.symm))
          · exact Or.inr ⟨e2, he2, hc⟩

/-- Membership characterization of the per-bug patch set: exactly the
commits picked by the per-edit origin query over the fix commits. -/
lemma mem_bugPatches (st : Store) (o : Options) (bug : BugRow) (c : CommitRow) :
    c ∈ bugPatches st o bug ↔
      ∃ fix ∈ fixCommits st o bug, ∃ e ∈ commitEdits st fix,
        pickLatest (originCandidates st fix.date e) = some c := by
  unfold bugPatches
  suffices h : ∀ (fixes : List CommitRow) (acc : List CommitRow),
      (c ∈ fixes.foldl (fun acc fix => (commitEdits st fix).foldl (patchStep st fix.date) acc) acc ↔
        c ∈ acc ∨ ∃ fix ∈ fixes, ∃ e ∈ commitEdits st fix,
          pickLatest (originCandidates st fix.date e) = some c) by
    rw [h (fixCommits st o bug) []]
    simp
  intro fixes
  induction fixes with
  | nil => intro acc; simp
  | cons fix tl ih =>
    intro acc
    rw [List.foldl_cons, ih, mem_foldl_patchStep]
    constructor
    · rintro ((h | ⟨e, he, hc⟩) | ⟨f2, hf2, e, he, hc⟩)
      · exact Or.inl h
      · exact Or.inr ⟨fix, List.mem_cons_self fix tl, e, he, hc⟩
      · exact Or.inr ⟨f2, List.mem_cons_of_mem fix hf2, e, he, hc⟩
    · rintro (h | ⟨f2, hf2, e, he, hc⟩)
      · exact Or.inl (Or.inl h)
      · rcases List.mem_cons.mp hf2 with rfl | hf2
        · exact Or.inl (Or.inr ⟨e, he, hc⟩)
        · exact Or.inr ⟨f2, hf2, e, he, hc⟩

/-! ## C2: the resolver picks the latest matching earlier commit -/

/-- C2: every commit in a bug's patch set is, for some edit of some of the
bug's fix commits (those passing the date window), a candidate of the
per-edit origin query of maximal date — the candidates being the commits
strictly older than the fix commit containing an edit whose new side equals
the fix edit's old side; and conversely every fix edit with a non-empty
candidate list contributes such a maximal-date candidate to the patch set
(the reported set is the union of the per-edit selections). -/
theorem resolver_origin_latest (st : Store) (o : Options) (bug : BugRow) :
    (∀ c ∈ bugPatches st o bug,
      ∃ fix ∈ fixCommits st o bug, ∃ e ∈ commitEdits st fix,
        c ∈ originCandidates st fix.date e ∧
        ∀ b ∈ originCandidates st fix.date e, b.date ≤ c.date) ∧
    (∀ fix ∈ fixCommits st o bug, ∀ e ∈ commitEdits st fix,
      originCandidates st fix.date e ≠ [] →
      ∃ c ∈ bugPatches st o bug,
        c ∈ originCandidates st fix.date e ∧
        ∀ b ∈ originCandidates st fix.date e, b.date ≤ c.date) := by
  constructor
  · intro c hc
    rcases (mem_bugPatches st o bug c).mp hc with ⟨fix, hfix, e, he, hpick⟩
    rcases pickLatest_spec _ _ hpick with ⟨hmem, hmax⟩
    exact ⟨fix, hfix, e, he, hmem, hmax⟩
  · intro fix hfix e he hne
    cases hl : originCandidates st fix.date e with
    | nil => exact absurd hl hne
    | cons x xs =>
      cases hp : pickLatest (x :: xs) with
      | none => exact absurd hp (pickLatest_ne_none x xs)
      | some c =>
        have hp2 : pickLatest (originCandidates st fix.date e) = some c := by
          rw [hl]; exact hp
        rcases pickLatest_spec _ _ hp with ⟨hmem, hmax⟩
        exact ⟨c, (mem_bugPatches st o bug c).mpr ⟨fix, hfix, e, he, hp2⟩, ⟨hmem, hmax⟩⟩

/-- Witness for C2: in the concrete store, commit "o" is reported for bug 7
and is the maximal-date candidate of the fix commit's edit. -/
theorem resolver_origin_latest_witness :
    (⟨1, "o", 5⟩ : CommitRow) ∈ bugPatches storeEx noDates ⟨1, 7⟩ ∧
    (∃ fix ∈ fixCommits storeEx noDates ⟨1, 7⟩, ∃ e ∈ commitEdits storeEx fix,
      (⟨1, "o", 5⟩ : CommitRow) ∈ originCandidates storeEx fix.date e ∧
      ∀ b ∈ originCandidates storeEx fix.date e,
        b.date ≤ (⟨1, "o", 5⟩ : CommitRow).date) :=
  ⟨by decide,
    (resolver_origin_latest storeEx noDates ⟨1, 7⟩).1 ⟨1, "o", 5⟩ (by decide)⟩

/-! ## C9: origin commits strictly precede their fix commits -/

/-- C9: every origin commit the resolver reports for a bug has date
strictly less than the date of the fix commit whose edit it was resolved
from. -/
theorem origin_date_precedes_fix (st : Store) (o : Options) (bug : BugRow) :
    ∀ c ∈ bugPatches st o bug,
      ∃ fix ∈ fixCommits st o bug, c.date < fix.date := by
  intro c hc
  rcases (mem_bugPatches st o bug c).mp hc with ⟨fix, hfix, e, he, hpick⟩
  rcases pickLatest_spec _ _ hpick with ⟨hmem, _⟩
  refine ⟨fix, hfix, ?_⟩
  rcases List.mem_filter.mp hmem with ⟨_, hcond⟩
  rw [Bool.and_eq_true, decide_eq_true_eq] at hcond
  exact hcond.1

/-- Witness for C9: commit "o" (date 5) is reported for bug 7 and indeed
precedes the fix commit "f" (date 10). -/
theorem origin_date_precedes_fix_witness :
    (⟨1, "o", 5⟩ : CommitRow) ∈ bugPatches storeEx noDates ⟨1, 7⟩ ∧
    (∃ fix ∈ fixCommits storeEx noDates ⟨1, 7⟩,
      (⟨1, "o", 5⟩ : CommitRow).date < fix.date) :=
  ⟨by decide,
    origin_date_precedes_fix storeEx noDates ⟨1, 7⟩ ⟨1, "o", 5⟩ (by decide)⟩

/-! ## C10: pure-addition fix edits and the IS NULL origin query -/

/-- C10 counterexample: in `storeEx` the fix commit's only edit is a pure
addition (old_line null), yet its origin query matches commit "o" — Storm
compiles the equality against the null old_line to IS NULL, which the
deletion-shaped edit of "o" satisfies — so the edit does contribute an
origin commit, refuting "such edits never contribute". -/
theorem pure_addition_contributes_origin :
    commitEdits storeEx ⟨2, "f", 10⟩ = [⟨2, some 1, some 1, none, some 3, 2⟩] ∧
    (⟨2, some 1, some 1, none, some 3, 2⟩ : EditRow).old_line = none ∧
    originCandidates storeEx 10 ⟨2, some 1, some 1, none, some 3, 2⟩ = [⟨1, "o", 5⟩] ∧
    bugPatches storeEx noDates ⟨1, 7⟩ = [⟨1, "o", 5⟩] :=
  ⟨by decide, rfl, by decide, by decide⟩

/-- C10 (amended): for a fix edit with null old_line, the per-edit origin
query matches exactly the commits strictly before the fix date containing
an edit with null new_line whose new_file equals the fix edit's old_file
(the Storm equality against None compiles to IS NULL); such edits can
therefore contribute an origin commit. -/
theorem pure_addition_query_null_semantics (st : Store) (fixDate : Int) (e : EditRow)
    (h : e.old_line = none) (c : CommitRow) :
    c ∈ originCandidates st fixDate e ↔
      c ∈ st.commits ∧ c.date < fixDate ∧
        ∃ e2 ∈ st.edits, e2.commit_id = c.id ∧ e2.new_file_id = e.old_file_id ∧
          e2.new_line = none := by
  unfold originCandidates
  rw [List.mem_filter]
  simp only [Bool.and_eq_true, decide_eq_true_eq, List.any_eq_true, beq_iff_eq, h, and_assoc]

/-- Witness for C10 (amended): the characterization applied to the concrete
pure-addition fix edit of `storeEx`. -/
theorem pure_addition_query_null_semantics_witness :
    ((⟨2, some 1, some 1, none, some 3, 2⟩ : EditRow).old_line = none) ∧
    ((⟨1, "o", 5⟩ : CommitRow) ∈
        originCandidates storeEx 10 ⟨2, some 1, some 1, none, some 3, 2⟩ ↔
      (⟨1, "o", 5⟩ : CommitRow) ∈ storeEx.commits ∧
        (⟨1, "o", 5⟩ : CommitRow).date < 10 ∧
        ∃ e2 ∈ storeEx.edits,
          e2.commit_id = (⟨1, "o", 5⟩ : CommitRow).id ∧
          e2.new_file_id = (⟨2, some 1, some 1, none, some 3, 2⟩ : EditRow).old_file_id ∧
          e2.new_line = none) :=
  ⟨rfl, pure_addition_query_null_semantics storeEx 10
    ⟨2, some 1, some 1, none, some 3, 2⟩ rfl ⟨1, "o", 5⟩⟩

/-! ## Store growth and uniqueness (for C3) -/

lemma exists_append_self {α : Type} (l : List α) : ∃ u, l = l ++ u :=
  ⟨[], by simp⟩

lemma tablesLE_refl (s : Store) : tablesLE s s :=
  ⟨exists_append_self _, exists_append_self _, exists_append_self _,
   exists_append_self _, exists_append_self _⟩

lemma tablesLE_trans {a b c : Store} (h1 : tablesLE a b) (h2 : tablesLE b c) :
    tablesLE a c := by
  rcases h1 with ⟨⟨u1, e1⟩, ⟨u2, e2⟩, ⟨u3, e3⟩, ⟨u4, e4⟩, ⟨u5, e5⟩⟩
  rcases h2 with ⟨⟨v1, f1⟩, ⟨v2, f2⟩, ⟨v3, f3⟩, ⟨v4, f4⟩, ⟨v5, f5⟩⟩
  exact ⟨⟨u1 ++ v1, by rw [f1, e1, List.append_assoc]⟩,
    ⟨u2 ++ v2, by rw [f2, e2, List.append_assoc]⟩,
    ⟨u3 ++ v3, by rw [f3, e3, List.append_assoc]⟩,
    ⟨u4 ++ v4, by rw [f4, e4, List.append_assoc]⟩,
    ⟨u5 ++ v5, by rw [f5, e5, List.append_assoc]⟩⟩

lemma insertPair_extends (l : List (Nat × Nat)) (p : Nat × Nat) :
    ∃ u, insertPair l p = l ++ u := by
  unfold insertPair
  split
  · exact exists_append_self _
  · exact ⟨[p], rfl⟩

lemma insertPair_mem (l : List (Nat × Nat)) (p : Nat × Nat) : p ∈ insertPair l p := by
  unfold insertPair
  split
  · assumption
  · simp

lemma insertPair_of_mem (l : List (Nat × Nat)) (p : Nat × Nat) (h : p ∈ l) :
    insertPair l p = l := by
  unfold insertPair
  rw [if_pos h]

lemma getCommit_tables (st : Store) (hx : String) (d : Int) :
    tablesLE st (st.getCommit hx d).2 := by
  unfold Store.getCommit
  split
  · exact tablesLE_refl st
  · exact ⟨exists_append_self _, ⟨[⟨st.nextCommitId, hx, d⟩], rfl⟩,
      exists_append_self _, exists_append_self _, exists_append_self _⟩

lemma getFile_tables (st : Store) (p : String) : tablesLE st (st.getFile p).2 := by
  unfold Store.getFile
  split
  · exact tablesLE_refl st
  · exact ⟨⟨[⟨st.nextFileId, p⟩], rfl⟩, exists_append_self _,
      exists_append_self _, exists_append_self _, exists_append_self _⟩

lemma getBug_tables (st : Store) (no : Nat) : tablesLE st (st.getBug no).2 := by
  unfold Store.getBug
  split
  · exact tablesLE_refl st
  · exact ⟨exists_append_self _, exists_append_self _, exists_append_self _,
      ⟨[⟨st.nextBugId, no⟩], rfl⟩, exists_append_self _⟩

lemma editStep_tables (oF nF : Option Nat) (cid : Nat) (st : Store)
    (b : Option Nat × Option Nat) : tablesLE st (editStep oF nF cid st b) :=
  ⟨exists_append_self _, exists_append_self _, exists_append_self _,
   exists_append_self _, exists_append_self _⟩

lemma bugStep_tables (cid : Nat) (st : Store) (n : Nat) :
    tablesLE st (bugStep cid st n) := by
  refine tablesLE_trans (getBug_tables st n) ?_
  exact ⟨exists_append_self _, exists_append_self _, exists_append_self _,
    exists_append_self _, insertPair_extends _ _⟩

lemma tablesLE_foldl {β : Type} (f : Store → β → Store)
    (hf : ∀ s x, tablesLE s (f s x)) :
    ∀ (l : List β) (s : Store), tablesLE s (l.foldl f s) := by
  intro l
  induction l with
  | nil => intro s; exact tablesLE_refl s
  | cons x xs ih => intro s; exact tablesLE_trans (hf s x) (ih (f s x))

lemma buildHunk_tables (solver : List (List ℚ) → List (Nat × Nat)) (cid : Nat)
    (st : Store) (h : Hunk) : tablesLE st (buildHunk solver cid st h) := by
  rw [buildHunk_eq]
  refine tablesLE_trans (getFile_tables st h.old_file) ?_
  refine tablesLE_trans (getFile_tables _ h.new_file) ?_
  exact tablesLE_foldl _ (editStep_tables _ _ cid) _ _

lemma buildParent_tables (solver : List (List ℚ) → List (Nat × Nat)) (cid : Nat)
    (st : Store) (p : ParentData) : tablesLE st (buildParent solver cid st p) := by
  cases hph : p.hunks with
  | none =>
    rw [buildParent_eq_none solver cid st p hph]
    refine tablesLE_trans (getCommit_tables st p.hex p.commit_time) ?_
    exact ⟨exists_append_self _, exists_append_self _, insertPair_extends _ _,
      exists_append_self _, exists_append_self _⟩
  | some hs =>
    rw [buildParent_eq_some solver cid st p hs hph]
    refine tablesLE_trans (getCommit_tables st p.hex p.commit_time) ?_
    refine tablesLE_trans ?_ (tablesLE_foldl _ (buildHunk_tables solver cid) _ _)
    exact ⟨exists_append_self _, exists_append_self _, insertPair_extends _ _,
      exists_append_self _, exists_append_self _⟩

lemma buildCommit_tables (solver : List (List ℚ) → List (Nat × Nat))
    (st : Store) (c : CommitData) : tablesLE st (buildCommit solver st c) := by
  rw [buildCommit_eq]
  have h1 := getCommit_tables st c.hex c.commit_time
  have h2 := tablesLE_foldl (bugStep (st.getCommit c.hex c.commit_time).1.id)
    (bugStep_tables _) (test_regexp c.message) (st.getCommit c.hex c.commit_time).2
  refine tablesLE_trans h1 (tablesLE_trans h2 ?_)
  exact tablesLE_foldl _ (buildParent_tables solver _) _ _

/-! ## Uniqueness preservation (for C3) -/

lemma uniq_append_of_fresh {α κ : Type} (key : α → κ) (l : List α) (r : α)
    (hl : ∀ a ∈ l, ∀ b ∈ l, key a = key b → a = b)
    (hr : ∀ a ∈ l, key a ≠ key r) :
    ∀ a ∈ l ++ [r], ∀ b ∈ l ++ [r], key a = key b → a = b := by
  intro a ha b hb hk
  rcases List.mem_append.mp ha with ha1 | ha1
  · rcases List.mem_append.mp hb with hb1 | hb1
    · exact hl a ha1 b hb1 hk
    · have hbr : b = r := by simpa using hb1
      exact absurd (hk.trans (congrArg key hbr)) (hr a ha1)
  · have har : a = r := by simpa using ha1
    rcases List.mem_append.mp hb with hb1 | hb1
    · exact absurd (hk.symm.trans (congrArg key har)) (hr b hb1)
    · have hbr : b = r := by simpa using hb1
      rw [har, hbr]

lemma wf_emptyStore : wfStore emptyStore := by
  refine ⟨?_, ?_, ?_⟩ <;> intro a ha <;> simp [emptyStore] at ha

lemma wf_getCommit (st : Store) (hx : String) (d : Int) (hwf : wfStore st) :
    wfStore (st.getCommit hx d).2 := by
  unfold Store.getCommit
  cases hfind : st.findCommit hx with
  | some r => exact hwf
  | none =>
    have hfresh : ∀ a ∈ st.commits, a.hex ≠ hx := by
      intro a ha
      have := List.find?_eq_none.mp hfind a ha
      simpa using this
    refine ⟨?_, hwf.2.1, hwf.2.2⟩
    exact uniq_append_of_fresh CommitRow.hex st.commits ⟨st.nextCommitId, hx, d⟩
      hwf.1 (fun a ha => hfresh a ha)

lemma wf_getFile (st : Store) (p : String) (hwf : wfStore st) :
    wfStore (st.getFile p).2 := by
  unfold Store.getFile
  cases hfind : st.findFile p with
  | some r => exact hwf
  | none =>
    have hfresh : ∀ a ∈ st.files, a.path ≠ p := by
      intro a ha
      have := List.find?_eq_none.mp hfind a ha
      simpa using this
    refine ⟨hwf.1, ?_, hwf.2.2⟩
    exact uniq_append_of_fresh FileRow.path st.files ⟨st.nextFileId, p⟩
      hwf.2.1 (fun a ha => hfresh a ha)

lemma wf_getBug (st : Store) (no : Nat) (hwf : wfStore st) :
    wfStore (st.getBug no).2 := by
  unfold Store.getBug
  cases hfind : st.findBug no with
  | some r => exact hwf
  | none =>
    have hfresh : ∀ a ∈ st.bugs, a.bug_no ≠ no := by
      intro a ha
      have := List.find?_eq_none.mp hfind a ha
      simpa using this
    refine ⟨hwf.1, hwf.2.1, ?_⟩
    exact uniq_append_of_fresh BugRow.bug_no st.bugs ⟨st.nextBugId, no⟩
      hwf.2.2 (fun a ha => hfresh a ha)

lemma wf_bugStep (cid : Nat) (st : Store) (n : Nat) (hwf : wfStore st) :
    wfStore (bugStep cid st n) :=
  wf_getBug st n hwf

lemma wf_buildHunk (solver : List (List ℚ) → List (Nat × Nat)) (cid : Nat)
    (st : Store) (h : Hunk) (hwf : wfStore st) :
    wfStore (buildHunk solver cid st h) := by
  rw [buildHunk_eq]
  refine foldl_preserve wfStore
    (editStep (some (st.getFile h.old_file).1.id)
      (some ((st.getFile h.old_file).2.getFile h.new_file).1.id) cid)
    (fun s x hs => hs) _ _ ?_
  exact wf_getFile _ h.new_file (wf_getFile st h.old_file hwf)

lemma wf_buildParent (solver : List (List ℚ) → List (Nat × Nat)) (cid : Nat)
    (st : Store) (p : ParentData) (hwf : wfStore st) :
    wfStore (buildParent solver cid st p) := by
  cases hph : p.hunks with
  | none =>
    rw [buildParent_eq_none solver cid st p hph]
    exact wf_getCommit st p.hex p.commit_time hwf
  | some hs =>
    rw [buildParent_eq_some solver cid st p hs hph]
    refine foldl_preserve wfStore _ (fun s x hs2 => wf_buildHunk solver cid s x hs2) _ _ ?_
    exact wf_getCommit st p.hex p.commit_time hwf

lemma wf_buildCommit (solver : List (List ℚ) → List (Nat × Nat))
    (st : Store) (c : CommitData) (hwf : wfStore st) :
    wfStore (buildCommit solver st c) := by
  rw [buildCommit_eq]
  refine foldl_preserve wfStore _
    (fun s x hs => wf_buildParent solver _ s x hs) c.parents _ ?_
  refine foldl_preserve wfStore _ (fun s x hs => wf_bugStep _ s x hs) _ _ ?_
  exact wf_getCommit st c.hex c.commit_time hwf

lemma wf_build (solver : List (List ℚ) → List (Nat × Nat))
    (repo : List CommitData) (st : Store) (hwf : wfStore st) :
    wfStore (build solver repo st) :=
  foldl_preserve wfStore _ (fun s x hs => wf_buildCommit solver s x hs) repo st hwf

/-! ## Replay of the find-or-add operations (for C3) -/

lemma find?_eq_some_of_unique {α : Type} (p : α → Bool) (l : List α) (r : α)
    (hmem : r ∈ l) (hp : p r = true)
    (huniq : ∀ a ∈ l, p a = true → a = r) :
    l.find? p = some r := by
  induction l with
  | nil => simp at hmem
  | cons x xs ih =>
    by_cases hx : p x = true
    · have hxr : x = r := huniq x (List.mem_cons_self x xs) hx
      rw [List.find?_cons_of_pos _ hx, hxr]
    · rw [List.find?_cons_of_neg _ hx]
      rcases List.mem_cons.mp hmem with rfl | hmem2
      · exact absurd hp hx
      · exact ih hmem2 (fun a ha hpa => huniq a (List.mem_cons_of_mem x ha) hpa)

/-- If a second run's store contains (a suffix extension of) the commit
table produced by a find-or-add, the same find-or-add on the bigger store
is a pure lookup returning the very row the first run used. -/
lemma getCommit_replay (st T : Store) (hx : String) (d : Int)
    (hwf : ∀ a ∈ T.commits, ∀ b ∈ T.commits, a.hex = b.hex → a = b)
    (hext : ∃ u, T.commits = (st.getCommit hx d).2.commits ++ u) :
    T.getCommit hx d = ((st.getCommit hx d).1, T) := by
  rcases hext with ⟨u, hu⟩
  cases hst : st.findCommit hx with
  | some r =>
    simp only [Store.getCommit, hst] at hu ⊢
    have hst2 : st.commits.find? (fun a => a.hex == hx) = some r := hst
    have hrhex : r.hex = hx := by
      have := List.find?_some hst2
      simpa using this
    have hrmem : r ∈ T.commits := by
      rw [hu]
      exact List.mem_append.mpr (Or.inl (List.mem_of_find?_eq_some hst2))
    have hfind : T.findCommit hx = some r := by
      unfold Store.findCommit
      refine find?_eq_some_of_unique _ _ r hrmem (by simp [hrhex]) ?_
      intro a ha hpa
      have hahex : a.hex = hx := by simpa using hpa
      exact hwf a ha r hrmem (hahex.trans hrhex.symm)
    simp [hfind]
  | none =>
    simp only [Store.getCommit, hst] at hu ⊢
    have hrmem : (⟨st.nextCommitId, hx, d⟩ : CommitRow) ∈ T.commits := by
      rw [hu]
      exact List.mem_append.mpr (Or.inl (List.mem_append.mpr (Or.inr (by simp))))
    have hfind : T.findCommit hx = some ⟨st.nextCommitId, hx, d⟩ := by
      unfold Store.findCommit
      refine find?_eq_some_of_unique _ _ _ hrmem (by simp) ?_
      intro a ha hpa
      have hahex : a.hex = hx := by simpa using hpa
      exact hwf a ha _ hrmem hahex
    simp [hfind]

lemma getFile_replay (st T : Store) (p : String)
    (hwf : ∀ a ∈ T.files, ∀ b ∈ T.files, a.path = b.path → a = b)
    (hext : ∃ u, T.files = (st.getFile p).2.files ++ u) :
    T.getFile p = ((st.getFile p).1, T) := by
  rcases hext with ⟨u, hu⟩
  cases hst : st.findFile p with
  | some r =>
    simp only [Store.getFile, hst] at hu ⊢
    have hst2 : st.files.find? (fun a => a.path == p) = some r := hst
    have hrpath : r.path = p := by
      have := List.find?_some hst2
      simpa using this
    have hrmem : r ∈ T.files := by
      rw [hu]
      exact List.mem_append.mpr (Or.inl (List.mem_of_find?_eq_some hst2))
    have hfind : T.findFile p = some r := by
      unfold Store.findFile
      refine find?_eq_some_of_unique _ _ r hrmem (by simp [hrpath]) ?_
      intro a ha hpa
      have hapath : a.path = p := by simpa using hpa
      exact hwf a ha r hrmem (hapath.trans hrpath.symm)
    simp [hfind]
  | none =>
    simp only [Store.getFile, hst] at hu ⊢
    have hrmem : (⟨st.nextFileId, p⟩ : FileRow) ∈ T.files := by
      rw [hu]
      exact List.mem_append.mpr (Or.inl (List.mem_append.mpr (Or.inr (by simp))))
    have hfind : T.findFile p = some ⟨st.nextFileId, p⟩ := by
      unfold Store.findFile
      refine find?_eq_some_of_unique _ _ _ hrmem (by simp) ?_
      intro a ha hpa
      have hapath : a.path = p := by simpa using hpa
      exact hwf a ha _ hrmem hapath
    simp [hfind]

lemma getBug_replay (st T : Store) (no : Nat)
    (hwf : ∀ a ∈ T.bugs, ∀ b ∈ T.bugs, a.bug_no = b.bug_no → a = b)
    (hext : ∃ u, T.bugs = (st.getBug no).2.bugs ++ u) :
    T.getBug no = ((st.getBug no).1, T) := by
  rcases hext with ⟨u, hu⟩
  cases hst : st.findBug no with
  | some r =>
    simp only [Store.getBug, hst] at hu ⊢
    have hst2 : st.bugs.find? (fun a => a.bug_no == no) = some r := hst
    have hrno : r.bug_no = no := by
      have := List.find?_some hst2
      simpa using this
    have hrmem : r ∈ T.bugs := by
      rw [hu]
      exact List.mem_append.mpr (Or.inl (List.mem_of_find?_eq_some hst2))
    have hfind : T.findBug no = some r := by
      unfold Store.findBug
      refine find?_eq_some_of_unique _ _ r hrmem (by simp [hrno]) ?_
      intro a ha hpa
      have hano : a.bug_no = no := by simpa using hpa
      exact hwf a ha r hrmem (hano.trans hrno.symm)
    simp [hfind]
  | none =>
    simp only [Store.getBug, hst] at hu ⊢
    have hrmem : (⟨st.nextBugId, no⟩ : BugRow) ∈ T.bugs := by
      rw [hu]
      exact List.mem_append.mpr (Or.inl (List.mem_append.mpr (Or.inr (by simp))))
    have hfind : T.findBug no = some ⟨st.nextBugId, no⟩ := by
      unfold Store.findBug
      refine find?_eq_some_of_unique _ _ _ hrmem (by simp) ?_
      intro a ha hpa
      have hano : a.bug_no = no := by simpa using hpa
      exact hwf a ha _ hrmem hano
    simp [hfind]

/-! ## Structure of the edit-insertion fold (for C3) -/

lemma foldl_editStep_eq (oF nF : Option Nat) (cid : Nat) :
    ∀ (bodies : List (Option Nat × Option Nat)) (st : Store),
      bodies.foldl (editStep oF nF cid) st =
        { st with
          edits := st.edits ++ editRowsFrom st.nextEditId oF nF cid bodies
          nextEditId := st.nextEditId + bodies.length } := by
  intro bodies
  induction bodies with
  | nil =>
    intro st
    cases st
    simp [editRowsFrom]
  | cons b bs ih =>
    intro st
    rw [List.foldl_cons, ih]
    cases st
    simp only [editStep, Store.addEdit, editRowsFrom, List.length_cons, Store.mk.injEq,
      List.append_assoc, List.singleton_append, List.cons_append, List.nil_append,
      true_and, and_true]
    omega

lemma editRowsFrom_strip (oF nF : Option Nat) (cid : Nat) :
    ∀ (bodies : List (Option Nat × Option Nat)) (k : Nat),
      (editRowsFrom k oF nF cid bodies).map EditRow.strip =
        bodies.map (fun b => (oF, nF, b.1, b.2, cid)) := by
  intro bodies
  induction bodies with
  | nil => intro k; rfl
  | cons b bs ih =>
    intro k
    simp only [editRowsFrom, List.map_cons, ih]
    rfl

lemma editRowsFrom_length (oF nF : Option Nat) (cid : Nat) :
    ∀ (bodies : List (Option Nat × Option Nat)) (k : Nat),
      (editRowsFrom k oF nF cid bodies).length = bodies.length := by
  intro bodies
  induction bodies with
  | nil => intro k; rfl
  | cons b bs ih =>
    intro k
    simp [editRowsFrom, ih]

/-! ## The generic second-run replay (for C3) -/

/-- Folding a step over a store whose tables already extend the result of
the same fold leaves the tables untouched and appends edit rows that agree,
up to the assigned ids, with those the first fold appended. -/
lemma foldl_replay {β : Type} (f : Store → β → Store)
    (hmono : ∀ s x, tablesLE s (f s x))
    (hstep : ∀ (s T : Store) (x : β), wfStore T → tablesLE (f s x) T →
      ∃ E1 E2, (f s x).edits = s.edits ++ E1 ∧
        f T x = { T with
          edits := T.edits ++ E2
          nextEditId := T.nextEditId + E2.length } ∧
        E2.map EditRow.strip = E1.map EditRow.strip) :
    ∀ (l : List β) (s T : Store), wfStore T → tablesLE (l.foldl f s) T →
      ∃ E1 E2, (l.foldl f s).edits = s.edits ++ E1 ∧
        l.foldl f T = { T with
          edits := T.edits ++ E2
          nextEditId := T.nextEditId + E2.length } ∧
        E2.map EditRow.strip = E1.map EditRow.strip := by
  intro l
  induction l with
  | nil =>
    intro s T hwf hle
    refine ⟨[], [], by simp, ?_, rfl⟩
    cases T
    simp
  | cons x xs ih =>
    intro s T hwf hle
    rw [List.foldl_cons] at hle
    have hle1 : tablesLE (f s x) T :=
      tablesLE_trans (tablesLE_foldl f hmono xs (f s x)) hle
    rcases hstep s T x hwf hle1 with ⟨E1h, E2h, hs1, hT1, hstrip1⟩
    have hwf2 : wfStore (f T x) := by
      rw [hT1]
      exact hwf
    have hle2 : tablesLE (xs.foldl f (f s x)) (f T x) := by
      rw [hT1]
      exact hle
    rcases ih (f s x) (f T x) hwf2 hle2 with ⟨E1t, E2t, hs2, hT2, hstrip2⟩
    refine ⟨E1h ++ E1t, E2h ++ E2t, ?_, ?_, ?_⟩
    · rw [List.foldl_cons, hs2, hs1, List.append_assoc]
    · rw [List.foldl_cons, hT2, hT1]
      cases T
      simp [List.append_assoc]
      omega
    · rw [List.map_append, List.map_append, hstrip1, hstrip2]

/-- Unfolding equation for `bugStep` (the let bindings written out). -/
lemma bugStep_eq (cid : Nat) (st : Store) (n : Nat) :
    bugStep cid st n =
      { (st.getBug n).2 with
        bugCommits := insertPair (st.getBug n).2.bugCommits ((st.getBug n).1.id, cid) } := rfl

/-- Replaying the bug-linking loop on a store that already contains its
results is the identity, and the loop never touches the edits table. -/
lemma bug_fold_replay (cid : Nat) :
    ∀ (ns : List Nat) (s T : Store), wfStore T →
      tablesLE (ns.foldl (bugStep cid) s) T →
      ns.foldl (bugStep cid) T = T := by
  intro ns
  induction ns with
  | nil => intro s T hwf hle; rfl
  | cons n tl ih =>
    intro s T hwf hle
    rw [List.foldl_cons] at hle
    have hle1 : tablesLE (bugStep cid s n) T :=
      tablesLE_trans (tablesLE_foldl _ (bugStep_tables cid) tl _) hle
    have hget : T.getBug n = ((s.getBug n).1, T) := by
      refine getBug_replay s T n hwf.2.2 ?_
      exact hle1.2.2.2.1
    have hpair : ((s.getBug n).1.id, cid) ∈ T.bugCommits := by
      rcases hle1.2.2.2.2 with ⟨u, hu⟩
      rw [hu]
      refine List.mem_append.mpr (Or.inl ?_)
      exact insertPair_mem _ _
    have hstep : bugStep cid T n = T := by
      rw [bugStep_eq, hget]
      rw [insertPair_of_mem _ _ hpair]
    rw [List.foldl_cons, hstep]
    exact ih (bugStep cid s n) T hwf hle

/-- Replaying one hunk: on a store already containing the first run's file
rows, the find-or-adds are pure lookups of the same rows, the tables stay
untouched and the inserted edit rows agree with the first run's up to ids. -/
lemma buildHunk_replay (solver : List (List ℚ) → List (Nat × Nat)) (cid : Nat) :
    ∀ (s T : Store) (h : Hunk), wfStore T → tablesLE (buildHunk solver cid s h) T →
      ∃ E1 E2, (buildHunk solver cid s h).edits = s.edits ++ E1 ∧
        buildHunk solver cid T h = { T with
          edits := T.edits ++ E2
          nextEditId := T.nextEditId + E2.length } ∧
        E2.map EditRow.strip = E1.map EditRow.strip := by
  intro s T h hwf hle
  have hm2 : tablesLE ((s.getFile h.old_file).2.getFile h.new_file).2
      (buildHunk solver cid s h) := by
    rw [buildHunk_eq]
    exact tablesLE_foldl _ (editStep_tables _ _ _) _ _
  have hle2 : tablesLE ((s.getFile h.old_file).2.getFile h.new_file).2 T :=
    tablesLE_trans hm2 hle
  have hle1 : tablesLE (s.getFile h.old_file).2 T :=
    tablesLE_trans (getFile_tables _ h.new_file) hle2
  have hr1 : T.getFile h.old_file = ((s.getFile h.old_file).1, T) :=
    getFile_replay s T h.old_file hwf.2.1 hle1.1
  have hr2 : T.getFile h.new_file = (((s.getFile h.old_file).2.getFile h.new_file).1, T) :=
    getFile_replay (s.getFile h.old_file).2 T h.new_file hwf.2.1 hle2.1
  refine ⟨editRowsFrom ((s.getFile h.old_file).2.getFile h.new_file).2.nextEditId
      (some (s.getFile h.old_file).1.id)
      (some ((s.getFile h.old_file).2.getFile h.new_file).1.id) cid
      (hunkEditBodies solver h),
    editRowsFrom T.nextEditId
      (some (s.getFile h.old_file).1.id)
      (some ((s.getFile h.old_file).2.getFile h.new_file).1.id) cid
      (hunkEditBodies solver h),
    ?_, ?_, ?_⟩
  · rw [buildHunk_eq, foldl_editStep_eq]
    have he : ((s.getFile h.old_file).2.getFile h.new_file).2.edits = s.edits := by
      rw [getFile_edits, getFile_edits]
    dsimp only
    rw [he]
  · rw [buildHunk_eq, hr1]
    dsimp only
    rw [hr2]
    dsimp only
    rw [foldl_editStep_eq, editRowsFrom_length]
  · rw [editRowsFrom_strip, editRowsFrom_strip]

/-- Replaying one parent: the commit lookup and the parent link are no-ops
on the bigger store, and the hunk processing mirrors the first run's edit
rows. -/
lemma buildParent_replay (solver : List (List ℚ) → List (Nat × Nat)) (cid : Nat) :
    ∀ (s T : Store) (p : ParentData), wfStore T → tablesLE (buildParent solver cid s p) T →
      ∃ E1 E2, (buildParent solver cid s p).edits = s.edits ++ E1 ∧
        buildParent solver cid T p = { T with
          edits := T.edits ++ E2
          nextEditId := T.nextEditId + E2.length } ∧
        E2.map EditRow.strip = E1.map EditRow.strip := by
  intro s T p hwf hle
  cases hph : p.hunks with
  | none =>
    rw [buildParent_eq_none solver cid s p hph] at hle
    have hleC : tablesLE (s.getCommit p.hex p.commit_time).2 T := by
      refine tablesLE_trans ?_ hle
      exact ⟨exists_append_self _, exists_append_self _, insertPair_extends _ _,
        exists_append_self _, exists_append_self _⟩
    have hr : T.getCommit p.hex p.commit_time = ((s.getCommit p.hex p.commit_time).1, T) :=
      getCommit_replay s T p.hex p.commit_time hwf.1 hleC.2.1
    have hpair : ((s.getCommit p.hex p.commit_time).1.id, cid) ∈ T.commitParents := by
      rcases hle.2.2.1 with ⟨u, hu⟩
      rw [hu]
      exact List.mem_append.mpr (Or.inl (insertPair_mem _ _))
    refine ⟨[], [], ?_, ?_, rfl⟩
    · rw [buildParent_eq_none solver cid s p hph]
      have he : ({ (s.getCommit p.hex p.commit_time).2 with
          commitParents := insertPair (s.getCommit p.hex p.commit_time).2.commitParents
            ((s.getCommit p.hex p.commit_time).1.id, cid) }).edits = s.edits :=
        getCommit_edits s p.hex p.commit_time
      rw [he]
      simp
    · rw [buildParent_eq_none solver cid T p hph, hr]
      dsimp only
      rw [insertPair_of_mem _ _ hpair]
      cases T
      simp
  | some hs =>
    rw [buildParent_eq_some solver cid s p hs hph] at hle
    have hlink : tablesLE { (s.getCommit p.hex p.commit_time).2 with
        commitParents := insertPair (s.getCommit p.hex p.commit_time).2.commitParents
          ((s.getCommit p.hex p.commit_time).1.id, cid) } T :=
      tablesLE_trans (tablesLE_foldl _ (buildHunk_tables solver cid) _ _) hle
    have hleC : tablesLE (s.getCommit p.hex p.commit_time).2 T := by
      refine tablesLE_trans ?_ hlink
      exact ⟨exists_append_self _, exists_append_self _, insertPair_extends _ _,
        exists_append_self _, exists_append_self _⟩
    have hr : T.getCommit p.hex p.commit_time = ((s.getCommit p.hex p.commit_time).1, T) :=
      getCommit_replay s T p.hex p.commit_time hwf.1 hleC.2.1
    have hpair : ((s.getCommit p.hex p.commit_time).1.id, cid) ∈ T.commitParents := by
      rcases hlink.2.2.1 with ⟨u, hu⟩
      rw [hu]
      exact List.mem_append.mpr (Or.inl (insertPair_mem _ _))
    rcases foldl_replay (buildHunk solver cid) (buildHunk_tables solver cid)
      (fun s2 T2 x hw hl => buildHunk_replay solver cid s2 T2 x hw hl)
      (processedHunks hs)
      { (s.getCommit p.hex p.commit_time).2 with
        commitParents := insertPair (s.getCommit p.hex p.commit_time).2.commitParents
          ((s.getCommit p.hex p.commit_time).1.id, cid) } T hwf hle with
      ⟨E1, E2, h1, h2, h3⟩
    refine ⟨E1, E2, ?_, ?_, h3⟩
    · rw [buildParent_eq_some solver cid s p hs hph, h1]
      have he : ({ (s.getCommit p.hex p.commit_time).2 with
          commitParents := insertPair (s.getCommit p.hex p.commit_time).2.commitParents
            ((s.getCommit p.hex p.commit_time).1.id, cid) }).edits = s.edits :=
        getCommit_edits s p.hex p.commit_time
      rw [he]
    · rw [buildParent_eq_some solver cid T p hs hph, hr]
      dsimp only
      rw [insertPair_of_mem _ _ hpair]
      have hTT : { T with commitParents := T.commitParents } = T := rfl
      rw [hTT]
      exact h2

/-- Replaying one commit: commit lookup, bug links and parent links are
no-ops on the bigger store; only mirrored edit rows are appended. -/
lemma buildCommit_replay (solver : List (List ℚ) → List (Nat × Nat)) :
    ∀ (s T : Store) (c : CommitData), wfStore T → tablesLE (buildCommit solver s c) T →
      ∃ E1 E2, (buildCommit solver s c).edits = s.edits ++ E1 ∧
        buildCommit solver T c = { T with
          edits := T.edits ++ E2
          nextEditId := T.nextEditId + E2.length } ∧
        E2.map EditRow.strip = E1.map EditRow.strip := by
  intro s T c hwf hle
  rw [buildCommit_eq] at hle
  have hleB : tablesLE ((test_regexp c.message).foldl
      (bugStep (s.getCommit c.hex c.commit_time).1.id)
      (s.getCommit c.hex c.commit_time).2) T :=
    tablesLE_trans (tablesLE_foldl _ (buildParent_tables solver _) _ _) hle
  have hleC : tablesLE (s.getCommit c.hex c.commit_time).2 T :=
    tablesLE_trans (tablesLE_foldl _ (bugStep_tables _) _ _) hleB
  have hr : T.getCommit c.hex c.commit_time = ((s.getCommit c.hex c.commit_time).1, T) :=
    getCommit_replay s T c.hex c.commit_time hwf.1 hleC.2.1
  have hbug : (test_regexp c.message).foldl
      (bugStep (s.getCommit c.hex c.commit_time).1.id) T = T :=
    bug_fold_replay _ (test_regexp c.message) (s.getCommit c.hex c.commit_time).2 T hwf hleB
  rcases foldl_replay (buildParent solver (s.getCommit c.hex c.commit_time).1.id)
    (buildParent_tables solver _)
    (fun s2 T2 x hw hl => buildParent_replay solver _ s2 T2 x hw hl)
    c.parents
    ((test_regexp c.message).foldl (bugStep (s.getCommit c.hex c.commit_time).1.id)
      (s.getCommit c.hex c.commit_time).2) T hwf hle with ⟨E1, E2, h1, h2, h3⟩
  refine ⟨E1, E2, ?_, ?_, h3⟩
  · rw [buildCommit_eq, h1]
    have hBe : ((test_regexp c.message).foldl
        (bugStep (s.getCommit c.hex c.commit_time).1.id)
        (s.getCommit c.hex c.commit_time).2).edits = s.edits := by
      rw [bug_fold_edits, getCommit_edits]
    rw [hBe]
  · rw [buildCommit_eq, hr]
    dsimp only
    rw [hbug]
    exact h2

/-! ## C3: re-running ingestion duplicates the edit rows -/

/-- C3 counterexample: on a two-commit history whose diff yields one edit,
the first run stores one edit row; the second run over the same history
leaves every other table unchanged but appends a second edit row identical
to the first up to the assigned edit id — the edits table gains a duplicate
row, so re-running is not idempotent at the row level. -/
theorem ingest_twice_duplicates_edits :
    (build solverEx repoEx emptyStore).edits.map EditRow.strip =
      [(some 1, some 1, some 1, some 1, 2)] ∧
    (build solverEx repoEx (build solverEx repoEx emptyStore)).edits.map EditRow.strip =
      [(some 1, some 1, some 1, some 1, 2), (some 1, some 1, some 1, some 1, 2)] ∧
    (build solverEx repoEx (build solverEx repoEx emptyStore)).commits =
      (build solverEx repoEx emptyStore).commits := by
  exact ⟨by decide, by decide, by decide⟩

/-- C3 (amended): re-running `build` over the same history on the store the
first run produced leaves the files, commits, parent-link, bugs and
bug-link tables (and the non-edit id counters) unchanged, and appends to
the edits table one additional row per first-run edit row, identical to it
up to the assigned edit id.  The set of rows modulo assigned ids is
therefore unchanged, but ingestion is not idempotent: the edits table gains
a duplicate copy of every row. -/
theorem ingest_rerun_tables_stable (solver : List (List ℚ) → List (Nat × Nat))
    (repo : List CommitData) :
    ∃ E2, build solver repo (build solver repo emptyStore) =
      { build solver repo emptyStore with
        edits := (build solver repo emptyStore).edits ++ E2
        nextEditId := (build solver repo emptyStore).nextEditId + E2.length } ∧
      E2.map EditRow.strip = (build solver repo emptyStore).edits.map EditRow.strip := by
  have hwf : wfStore (build solver repo emptyStore) :=
    wf_build solver repo emptyStore wf_emptyStore
  rcases foldl_replay (buildCommit solver) (buildCommit_tables solver)
    (fun s2 T2 x hw hl => buildCommit_replay solver s2 T2 x hw hl)
    repo emptyStore (build solver repo emptyStore) hwf
    (tablesLE_refl (build solver repo emptyStore)) with ⟨E1, E2, h1, h2, h3⟩
  refine ⟨E2, h2, ?_⟩
  have h1b : (build solver repo emptyStore).edits = emptyStore.edits ++ E1 := h1
  rw [h3, h1b]
  simp [emptyStore]

end Grinder
